import Mathlib

/-!
Verification of the tsdb per-shard query-mapping engine: series cursors,
tag-set cursors, the raw mapper and the aggregate mapper.  Machine int64
values are modelled as Int (no arithmetic in the engine overflows 64 bits),
raw field bytes as opaque Nat tokens, and the external field codec, filter
expressions and aggregate functions as explicit function parameters, which
is how the engine consumes them (interfaces only).
-/

namespace Tsdb

/-- Raw field bytes are opaque to the engine; only the external codec
interprets them.  We model a byte payload as an abstract token. -/
abbrev Bytes := Nat

/-- A decoded field map (name to value), as produced by DecodeFieldsWithNames.
Decoded scalar field values are modelled as Int. -/
abbrev FieldsMap := List (String × Int)

/-- The value component returned by the tag-set cursor: either the single
decoded field (DecodeByName path) or the full decoded field map
(DecodeFieldsWithNames path).  In Go this is an interface value. -/
inductive MapperValue where
  | single (v : Int)
  | fields (m : FieldsMap)
  deriving Repr, DecidableEq

/-- External field codec (collaborator, interfaces only): decode one named
field, or all fields, from a byte payload.  A Go error result is none. -/
structure FieldCodec where
  decodeByName : String → Bytes → Option Int
  decodeFieldsWithNames : Bytes → Option FieldsMap

/-- A WHERE filter expression, consumed only through influxql.Eval on a
decoded field map; modelled as the Boolean predicate it evaluates to. -/
abbrev Filter := FieldsMap → Bool

/-- matchesWhere returns true iff the expression evaluates to the Boolean
true on the field map (anything else, including non-Boolean, is false). -/
def matchesWhere (f : Filter) (fields : FieldsMap) : Bool := f fields

/-- Modelled from the spec: the shardCursor returned by createCursorForSeries
(its Seek/Next methods are not under src).  Per section 4.1 it exposes the
series entries, persisted range and buffered cache merged, in ascending time
order; Seek positions at the first entry with timestamp at or after the
target, Next yields successive entries, and an exhausted cursor yields a nil
key.  We model it as an ascending list of (timestamp, bytes) entries plus a
position. -/
structure ShardCursor where
  data : List (Int × Bytes)
  pos : Nat
  deriving Repr, DecidableEq

instance : Inhabited ShardCursor := ⟨⟨[], 0⟩⟩

/-- Modelled from the spec: shardCursor.Next yields the entry at the current
position (nil key when exhausted) and advances. -/
def ShardCursor.next (c : ShardCursor) : Option (Int × Bytes) × ShardCursor :=
  match c.data.get? c.pos with
  | some e => (some e, ⟨c.data, c.pos + 1⟩)
  | none => (none, c)

/-- Modelled from the spec: shardCursor.Seek positions at the first entry
with timestamp at or after the target and returns it (nil key when there is
none); a following Next returns the entry after it. -/
def ShardCursor.seek (c : ShardCursor) (key : Int) : Option (Int × Bytes) × ShardCursor :=
  let i := (c.data.findIdx? (fun e => key ≤ e.1)).getD c.data.length
  match c.data.get? i with
  | some e => (some e, ⟨c.data, i + 1⟩)
  | none => (none, ⟨c.data, i⟩)

/-- seriesCursor: walks a single series with one-step lookahead.  keyBuffer
is the buffered timestamp, -1 meaning nothing buffered; valueBuffer the
buffered raw bytes (none for Go nil). -/
structure SeriesCursor where
  cursor : ShardCursor
  filter : Option Filter
  keyBuffer : Int
  valueBuffer : Option Bytes

instance : Inhabited SeriesCursor := ⟨⟨default, none, -1, none⟩⟩

/-- newSeriesCursor: nothing buffered (keyBuffer -1, nil valueBuffer). -/
def newSeriesCursor (b : ShardCursor) (filter : Option Filter) : SeriesCursor :=
  ⟨b, filter, -1, none⟩

/-- seriesCursor.Peek: if nothing is buffered, fetch from the underlying
cursor (a nil key sets keyBuffer to 0 and leaves valueBuffer untouched);
return the buffered pair without consuming it. -/
def SeriesCursor.peek (mc : SeriesCursor) : (Int × Option Bytes) × SeriesCursor :=
  if mc.keyBuffer = -1 then
    match mc.cursor.next with
    | (none, cur) =>
      let mc' : SeriesCursor := ⟨cur, mc.filter, 0, mc.valueBuffer⟩
      ((mc'.keyBuffer, mc'.valueBuffer), mc')
    | (some (k, v), cur) =>
      let mc' : SeriesCursor := ⟨cur, mc.filter, k, some v⟩
      ((mc'.keyBuffer, mc'.valueBuffer), mc')
  else
    ((mc.keyBuffer, mc.valueBuffer), mc)

/-- seriesCursor.SeekTo: reposition the underlying cursor; a found entry is
buffered, a nil key sets keyBuffer to 0 (valueBuffer untouched). -/
def SeriesCursor.seekTo (mc : SeriesCursor) (key : Int) : SeriesCursor :=
  match mc.cursor.seek key with
  | (none, cur) => ⟨cur, mc.filter, 0, mc.valueBuffer⟩
  | (some (k, v), cur) => ⟨cur, mc.filter, k, some v⟩

/-- seriesCursor.Next: consume the buffered pair if present (clearing the
buffer), otherwise fetch from the underlying cursor (a nil key yields
timestamp 0 and nil value; the buffer is not touched in that branch). -/
def SeriesCursor.next (mc : SeriesCursor) : (Int × Option Bytes) × SeriesCursor :=
  if mc.keyBuffer ≠ -1 then
    ((mc.keyBuffer, mc.valueBuffer), ⟨mc.cursor, mc.filter, -1, none⟩)
  else
    match mc.cursor.next with
    | (none, cur) => ((0, none), ⟨cur, mc.filter, mc.keyBuffer, mc.valueBuffer⟩)
    | (some (k, v), cur) => ((k, some v), ⟨cur, mc.filter, mc.keyBuffer, mc.valueBuffer⟩)

/-- tagSetCursor: a virtual cursor over multiple series cursors of one tag
set, plus the shared decoder. -/
structure TagSetCursor where
  measurement : String
  tags : List (String × String)
  cursors : List SeriesCursor
  decoder : FieldCodec

instance : Inhabited TagSetCursor :=
  ⟨⟨"", [], [], ⟨fun _ _ => none, fun _ => none⟩⟩⟩

/-- newTagSetCursor. -/
def newTagSetCursor (m : String) (t : List (String × String)) (c : List SeriesCursor)
    (d : FieldCodec) : TagSetCursor :=
  ⟨m, t, c, d⟩

/-- The in-range test of tagSetCursor.nextCursor: timestamp nonzero and
either equal to tmin or in the half-open window. -/
def inRange (t tmin tmax : Int) : Bool :=
  t ≠ 0 && (t == tmin || (tmin ≤ t && t < tmax))

/-- The selection loop of tagSetCursor.nextCursor: walk the member cursors
in order, peeking each (which buffers it); keep the first cursor whose peek
is in range, replacing it whenever a later in-range peek is strictly lower
(the comparison re-peeks the current minimum, as the Go code does).  Returns
the index of the chosen cursor and the updated members. -/
def nextCursorGo (tmin tmax : Int) :
    List SeriesCursor → List SeriesCursor → Option Nat → Option Nat × List SeriesCursor
  | acc, [], minIdx => (minIdx, acc)
  | acc, c :: rest, minIdx =>
    let p := c.peek
    let t := p.1.1
    let acc' := acc ++ [p.2]
    if inRange t tmin tmax then
      match minIdx with
      | none => nextCursorGo tmin tmax acc' rest (some acc.length)
      | some j =>
        let cj := acc'.getD j default
        let pj := cj.peek
        let acc'' := acc'.set j pj.2
        if t < pj.1.1 then nextCursorGo tmin tmax acc'' rest (some acc.length)
        else nextCursorGo tmin tmax acc'' rest (some j)
    else
      nextCursorGo tmin tmax acc' rest minIdx

/-- tagSetCursor.nextCursor: the series cursor with the lowest in-range next
timestamp, none if no member qualifies. -/
def TagSetCursor.nextCursor (tsc : TagSetCursor) (tmin tmax : Int) :
    Option Nat × TagSetCursor :=
  let r := nextCursorGo tmin tmax [] tsc.cursors none
  (r.1, ⟨tsc.measurement, tsc.tags, r.2, tsc.decoder⟩)

/-- The decode-and-filter block of tagSetCursor.Next, for the byte payload
popped from the chosen cursor: with more than one select field decode the
full field map (a decode error, or a failing filter, discards the value);
with a single select field decode just it (a decode error discards), then
evaluate a present filter against that field alone when the WHERE touches
only it, otherwise against the full decoded map.  none means the value is
skipped and the loop retries. -/
def decodeValue (d : FieldCodec) (filter : Option Filter)
    (selectFields whereFields : List String) (b : Bytes) : Option MapperValue :=
  if selectFields.length > 1 then
    match d.decodeFieldsWithNames b with
    | some fs =>
      match filter with
      | some f => if matchesWhere f fs then some (.fields fs) else none
      | none => some (.fields fs)
    | none => none
  else
    match d.decodeByName (selectFields.headD "") b with
    | none => none
    | some v =>
      match filter with
      | none => some (.single v)
      | some f =>
        if whereFields.length == 1 && whereFields.headD "" == selectFields.headD "" then
          if matchesWhere f [(selectFields.headD "", v)] then some (.single v) else none
        else
          match d.decodeFieldsWithNames b with
          | some fs => if matchesWhere f fs then some (.single v) else none
          | none => none

/-- tagSetCursor.Next: repeatedly choose the lowest in-range member cursor,
pop its next pair, decode and filter it; a skipped value (decode error,
failing filter, or nil bytes) retries the loop.  Returns timestamp 0 and no
value when no member qualifies.  The Go loop is unbounded; fuel bounds the
recursion and is irrelevant whenever a value or genuine emptiness is reached
within it.  (The Go seriesKey result is always the empty string and is
dropped here.) -/
def TagSetCursor.nextAux :
    Nat → TagSetCursor → Int → Int → List String → List String →
    (Int × Option MapperValue) × TagSetCursor
  | 0, tsc, _, _, _, _ => ((0, none), tsc)
  | fuel + 1, tsc, tmin, tmax, selectFields, whereFields =>
    match tsc.nextCursor tmin tmax with
    | (none, tsc') => ((0, none), tsc')
    | (some i, tsc') =>
      let c := tsc'.cursors.getD i default
      let p := c.next
      let tsc'' : TagSetCursor :=
        ⟨tsc'.measurement, tsc'.tags, tsc'.cursors.set i p.2, tsc'.decoder⟩
      let value : Option MapperValue :=
        match p.1.2 with
        | none => none
        | some b => decodeValue tsc''.decoder c.filter selectFields whereFields b
      match value with
      | none => TagSetCursor.nextAux fuel tsc'' tmin tmax selectFields whereFields
      | some v => ((p.1.1, some v), tsc'')

/-- tagSetCursor.SeekTo: seek every member cursor. -/
def TagSetCursor.seekTo (tsc : TagSetCursor) (key : Int) : TagSetCursor :=
  ⟨tsc.measurement, tsc.tags, tsc.cursors.map (fun c => c.seekTo key), tsc.decoder⟩

/-- A raw chunk: one tag set's measurement name, tag values, and ordered
(timestamp, decoded value) pairs. -/
structure RawMapperOutput where
  name : String
  tags : List (String × String)
  values : List (Int × MapperValue)
  deriving Repr, DecidableEq

/-- RawMapper state after Open: query bounds, resolved field lists, the
ordered tag-set cursors and the index of the cursor currently drained.
chunkSize is a Go int. -/
structure RawMapper where
  chunkSize : Int
  queryTMin : Int
  queryTMax : Int
  selectFields : List String
  whereFields : List String
  cursors : List TagSetCursor
  currCursorIndex : Nat

/-- The loop body of RawMapper.NextChunk, with the pending chunk as the
accumulator: when all tag-set cursors are processed return nil; pull from
the current cursor; an empty pull advances to the next cursor, returning the
pending chunk if one was accumulated; otherwise append the value (creating
the chunk from the current cursor's name and tags if pending is nil) and
return once the chunk reaches chunkSize.  fuel bounds the unbounded Go
loop. -/
def RawMapper.nextChunkAux :
    Nat → RawMapper → Option RawMapperOutput → Option RawMapperOutput × RawMapper
  | 0, rm, _ => (none, rm)
  | fuel + 1, rm, output =>
    if rm.currCursorIndex = rm.cursors.length then (none, rm)
    else
      let cursor := rm.cursors.getD rm.currCursorIndex default
      let r := TagSetCursor.nextAux (fuel + 1) cursor rm.queryTMin rm.queryTMax
        rm.selectFields rm.whereFields
      let rm' : RawMapper :=
        ⟨rm.chunkSize, rm.queryTMin, rm.queryTMax, rm.selectFields, rm.whereFields,
          rm.cursors.set rm.currCursorIndex r.2, rm.currCursorIndex⟩
      match r.1.2 with
      | none =>
        let rm'' : RawMapper :=
          ⟨rm'.chunkSize, rm'.queryTMin, rm'.queryTMax, rm'.selectFields, rm'.whereFields,
            rm'.cursors, rm'.currCursorIndex + 1⟩
        match output with
        | some out => (some out, rm'')
        | none => RawMapper.nextChunkAux fuel rm'' none
      | some v =>
        let out₀ : RawMapperOutput :=
          match output with
          | none => ⟨cursor.measurement, cursor.tags, []⟩
          | some o => o
        let out : RawMapperOutput := ⟨out₀.name, out₀.tags, out₀.values ++ [(r.1.1, v)]⟩
        if (out.values.length : Int) == rm.chunkSize then (some out, rm')
        else RawMapper.nextChunkAux fuel rm' (some out)

/-- RawMapper.NextChunk starts each call with a nil pending chunk. -/
def RawMapper.nextChunk (fuel : Nat) (rm : RawMapper) : Option RawMapperOutput × RawMapper :=
  RawMapper.nextChunkAux fuel rm none

/-- The accumulation loop of RawMapper.NextChunk restricted to one tag-set
cursor: pull values from this single cursor, appending to the accumulator,
until the cursor is empty (return the partial accumulator) or the
accumulator reaches csize.  Used to state that a chunk's values all come
from one cursor. -/
def drainChunk (csize tmin tmax : Int) (selectFields whereFields : List String) :
    Nat → TagSetCursor → List (Int × MapperValue) →
    List (Int × MapperValue) × TagSetCursor
  | 0, c, _ => ([], c)
  | fuel + 1, c, acc =>
    let r := TagSetCursor.nextAux (fuel + 1) c tmin tmax selectFields whereFields
    match r.1.2 with
    | none => (acc, r.2)
    | some v =>
      let acc' := acc ++ [(r.1.1, v)]
      if (acc'.length : Int) == csize then (acc', r.2)
      else drainChunk csize tmin tmax selectFields whereFields fuel r.2 acc'

/-- An aggregate chunk: one tag set's name, tags, the interval start time,
and one result per aggregate function in declared order.  Aggregate results
are opaque to the engine; we model them as Int. -/
structure AggMapperOutput where
  name : String
  tags : List (String × String)
  time : Int
  values : List Int
  deriving Repr, DecidableEq

/-- Modelled from the spec: an aggregate map function (the pluggable
function library is external, interfaces only).  Per section 6 it is an
opaque callable taking a pull-style value source and returning one result;
we model the pull source by the finite sequence of (timestamp, value) pairs
the iterator adapter yields before it is exhausted. -/
abbrev MapFunc := List (Int × MapperValue) → Int

/-- The iterator adapter handed to a map function: pull successive values
from the tag-set cursor until it yields no value.  fuel bounds the pulls. -/
def drainAll (qmin tmax : Int) (selectFields whereFields : List String) :
    Nat → TagSetCursor → List (Int × MapperValue) × TagSetCursor
  | 0, tsc => ([], tsc)
  | fuel + 1, tsc =>
    let r := TagSetCursor.nextAux (fuel + 1) tsc qmin tmax selectFields whereFields
    match r.1.2 with
    | none => ([], r.2)
    | some v =>
      let rest := drainAll qmin tmax selectFields whereFields fuel r.2
      ((r.1.1, v) :: rest.1, rest.2)

/-- AggMapper state after Open: query bounds, the floor-aligned window
start, interval size and count, the interval LIMIT offset from the
statement, paired map functions and field names, and the tag-set cursors.
numIntervals, currInterval and the statement offset are Go ints. -/
structure AggMapper where
  queryTMin : Int
  queryTMinWindow : Int
  queryTMax : Int
  intervalSize : Int
  mapFuncs : List MapFunc
  fieldNames : List String
  whereFields : List String
  numIntervals : Int
  stmtOffset : Int
  currInterval : Int
  cursors : List TagSetCursor
  currCursorIndex : Nat

/-- AggMapper.nextInterval: the next interval start is the window start
plus (currInterval + statement offset) intervals; currInterval is then
advanced, and the interval is (-1, 1) when the start passes the query
maximum or the advanced counter passes numIntervals. -/
def AggMapper.nextInterval (am : AggMapper) : (Int × Int) × AggMapper :=
  let t := am.queryTMinWindow + (am.currInterval + am.stmtOffset) * am.intervalSize
  let am' : AggMapper :=
    ⟨am.queryTMin, am.queryTMinWindow, am.queryTMax, am.intervalSize, am.mapFuncs,
      am.fieldNames, am.whereFields, am.numIntervals, am.stmtOffset,
      am.currInterval + 1, am.cursors, am.currCursorIndex⟩
  if t > am'.queryTMax || am'.currInterval > am'.numIntervals then ((-1, 1), am')
  else ((t, t + am'.intervalSize), am')

/-- AggMapper.resetIntervals. -/
def AggMapper.resetIntervals (am : AggMapper) : AggMapper :=
  ⟨am.queryTMin, am.queryTMinWindow, am.queryTMax, am.intervalSize, am.mapFuncs,
    am.fieldNames, am.whereFields, am.numIntervals, am.stmtOffset, 0, am.cursors,
    am.currCursorIndex⟩

/-- The per-function loop of AggMapper.NextChunk: for each (map function,
field name) pair in turn, seek the cursor to the interval start, feed the
function the values pulled between qmin and tmax for that single field, and
collect its result. -/
def aggFuncsFold (fuel : Nat) (tmin qmin tmax : Int) (whereFields : List String) :
    List (MapFunc × String) → TagSetCursor → List Int × TagSetCursor
  | [], c => ([], c)
  | (f, name) :: rest, c =>
    let c₁ := c.seekTo tmin
    let r := drainAll qmin tmax [name] whereFields fuel c₁
    let rec' := aggFuncsFold fuel tmin qmin tmax whereFields rest r.2
    (f r.1 :: rec'.1, rec'.2)

/-- AggMapper.NextChunk: for the current tag-set cursor take the next
interval; a negative start resets the interval counter and advances to the
next cursor; otherwise emit one chunk for the interval, tagged with its
start time, with the effective lower bound clamped to the query minimum
time, one result per map function. -/
def AggMapper.nextChunkAux : Nat → AggMapper → Option AggMapperOutput × AggMapper
  | 0, am => (none, am)
  | fuel + 1, am =>
    if am.currCursorIndex = am.cursors.length then (none, am)
    else
      let cursor := am.cursors.getD am.currCursorIndex default
      let r := am.nextInterval
      let tmin := r.1.1
      let tmax := r.1.2
      let am₁ := r.2
      if tmin < 0 then
        let am₂ : AggMapper :=
          ⟨am₁.queryTMin, am₁.queryTMinWindow, am₁.queryTMax, am₁.intervalSize,
            am₁.mapFuncs, am₁.fieldNames, am₁.whereFields, am₁.numIntervals,
            am₁.stmtOffset, 0, am₁.cursors, am₁.currCursorIndex + 1⟩
        AggMapper.nextChunkAux fuel am₂
      else
        let qmin := if tmin < am₁.queryTMin then am₁.queryTMin else tmin
        let s := aggFuncsFold (fuel + 1) tmin qmin tmax am₁.whereFields
          (am₁.mapFuncs.zip am₁.fieldNames) cursor
        let am₂ : AggMapper :=
          ⟨am₁.queryTMin, am₁.queryTMinWindow, am₁.queryTMax, am₁.intervalSize,
            am₁.mapFuncs, am₁.fieldNames, am₁.whereFields, am₁.numIntervals,
            am₁.stmtOffset, am₁.currInterval,
            am₁.cursors.set am₁.currCursorIndex s.2, am₁.currCursorIndex⟩
        (some ⟨cursor.measurement, cursor.tags, tmin, s.1⟩, am₂)

/-- AggMapper.NextChunk. -/
def AggMapper.nextChunk (fuel : Nat) (am : AggMapper) : Option AggMapperOutput × AggMapper :=
  AggMapper.nextChunkAux fuel am

/-- Collect every chunk the aggregate mapper emits, in order. -/
def collectAggChunks : Nat → AggMapper → List AggMapperOutput
  | 0, _ => []
  | fuel + 1, am =>
    match AggMapper.nextChunkAux (fuel + 1) am with
    | (none, _) => []
    | (some o, am') => o :: collectAggChunks fuel am'

/-- Go slice l[a:b], totalized (the engine only slices in bounds). -/
def goSlice {α : Type} (l : List α) (a b : Int) : List α :=
  (l.drop a.toNat).take (b - a).toNat

/-- The SLIMIT/SOFFSET truncation of RawMapper.Open: active when either is
positive; an offset beyond the tag-set count empties the list; otherwise
SLimit is clamped so the window fits and the window is sliced out.  Returns
the retained tag sets and the (possibly clamped) SLimit written back to the
statement. -/
def rawSlimitTagSets {α : Type} (slimit soffset : Int) (tagSets : List α) :
    List α × Int :=
  if slimit > 0 || soffset > 0 then
    if soffset > tagSets.length then ([], slimit)
    else
      let slimit' :=
        if soffset + slimit > tagSets.length then (tagSets.length : Int) - soffset
        else slimit
      (goSlice tagSets soffset (soffset + slimit'), slimit')
  else (tagSets, slimit)

/-- The SLIMIT/SOFFSET truncation of AggMapper.Open (textually identical to
the raw mapper's). -/
def aggSlimitTagSets {α : Type} (slimit soffset : Int) (tagSets : List α) :
    List α × Int :=
  if slimit > 0 || soffset > 0 then
    if soffset > tagSets.length then ([], slimit)
    else
      let slimit' :=
        if soffset + slimit > tagSets.length then (tagSets.length : Int) - soffset
        else slimit
      (goSlice tagSets soffset (soffset + slimit'), slimit')
  else (tagSets, slimit)

/-- The interval count AggMapper.Open computes before the interval
LIMIT/OFFSET block: one interval when the query minimum time is zero or the
GROUP BY duration d is zero, otherwise the span between the two interval
boundaries divided by d (Go integer division truncates toward zero). -/
def aggBaseIntervals (tmin tmax d : Int) : Int :=
  if tmin == 0 || d == 0 then 1
  else
    let intervalTop := tmax.tdiv d * d + d
    let intervalBottom := tmin.tdiv d * d
    (intervalTop - intervalBottom).tdiv d

/-- The interval size after the degenerate-case adjustment. -/
def aggIntervalSize (tmin tmax d : Int) : Int :=
  if tmin == 0 || d == 0 then tmax - tmin else d

/-- The interval count after the interval LIMIT clamp (only reached when the
offset does not exceed the base count). -/
def aggFinalIntervals (tmin tmax d lim off : Int) : Int :=
  let n := aggBaseIntervals tmin tmax d
  if lim > 0 || off > 0 then (if lim < n then lim else n) else n

/-- The window fields AggMapper.Open computes. -/
structure AggWindow where
  queryTMin : Int
  queryTMax : Int
  intervalSize : Int
  numIntervals : Int
  queryTMinWindow : Int
  deriving Repr, DecidableEq

/-- The outcome of the windowing part of AggMapper.Open: a validation
error, an early success return (interval offset beyond the count, cursors
never built, the window-start field left at its zero value), or the window
to drive NextChunk with. -/
inductive AggOpenResult where
  | err (msg : String)
  | earlyOk (w : AggWindow)
  | ok (w : AggWindow)
  deriving Repr, DecidableEq

/-- The windowing computation of AggMapper.Open (lines after the time-range
resolution): compute interval size and count, with the whole query range as
one interval when the minimum time or the GROUP BY duration is zero; then
the interval LIMIT/OFFSET block, returning early (success, no cursors) when
the offset exceeds the count and otherwise clamping the count to the limit;
then the hard ceiling check, a fatal error; then the window start floored to
an interval boundary.  maxGroupByPoints is the package ceiling constant
(modelled from the spec: its value is not under src, so it is a
parameter). -/
def aggOpenWindow (maxGroupByPoints tmin tmax d lim off : Int) : AggOpenResult :=
  let intervalSize := aggIntervalSize tmin tmax d
  let numIntervals := aggBaseIntervals tmin tmax d
  if lim > 0 || off > 0 then
    if off > numIntervals then
      .earlyOk ⟨tmin, tmax, intervalSize, numIntervals, 0⟩
    else
      let numIntervals := if lim < numIntervals then lim else numIntervals
      if numIntervals > maxGroupByPoints then
        .err "too many points in the group by interval. maybe you forgot to specify a where time clause?"
      else
        let w := if intervalSize > 0 then tmin.tdiv intervalSize * intervalSize else tmin
        .ok ⟨tmin, tmax, intervalSize, numIntervals, w⟩
  else
    if numIntervals > maxGroupByPoints then
      .err "too many points in the group by interval. maybe you forgot to specify a where time clause?"
    else
      let w := if intervalSize > 0 then tmin.tdiv intervalSize * intervalSize else tmin
      .ok ⟨tmin, tmax, intervalSize, numIntervals, w⟩

/-! Basic behaviour lemmas for the series cursor. -/

theorem SeriesCursor.peek_keyBuffer (c : SeriesCursor) : (c.peek.2).keyBuffer = c.peek.1.1 := by
  unfold SeriesCursor.peek
  split
  · split <;> simp
  · simp

theorem SeriesCursor.peek_filter (c : SeriesCursor) : (c.peek.2).filter = c.filter := by
  unfold SeriesCursor.peek
  split
  · split <;> simp
  · simp

theorem ShardCursor.next_data (c : ShardCursor) : (c.next.2).data = c.data := by
  unfold ShardCursor.next
  split <;> simp

theorem ShardCursor.seek_data (c : ShardCursor) (k : Int) : ((c.seek k).2).data = c.data := by
  unfold ShardCursor.seek
  dsimp only
  split <;> simp

theorem SeriesCursor.peek_data (c : SeriesCursor) : (c.peek.2).cursor.data = c.cursor.data := by
  unfold SeriesCursor.peek
  split
  · split <;> rename_i heq <;>
      · have hd := ShardCursor.next_data c.cursor
        rw [heq] at hd
        simpa using hd
  · simp

theorem SeriesCursor.peek_of_buffered (c : SeriesCursor) (h : c.keyBuffer ≠ -1) :
    c.peek = ((c.keyBuffer, c.valueBuffer), c) := by
  unfold SeriesCursor.peek
  simp [h]

theorem SeriesCursor.next_of_buffered (c : SeriesCursor) (h : c.keyBuffer ≠ -1) :
    c.next = ((c.keyBuffer, c.valueBuffer), ⟨c.cursor, c.filter, -1, none⟩) := by
  unfold SeriesCursor.next
  simp [h]

theorem SeriesCursor.next_filter (c : SeriesCursor) : (c.next.2).filter = c.filter := by
  unfold SeriesCursor.next
  split
  · simp
  · split <;> simp

theorem SeriesCursor.next_store (c : SeriesCursor) : (c.next.2).cursor.data = c.cursor.data := by
  unfold SeriesCursor.next
  split
  · simp
  · split <;> rename_i heq <;>
      · have hd := ShardCursor.next_data c.cursor
        rw [heq] at hd
        simpa using hd

theorem SeriesCursor.seekTo_filter (c : SeriesCursor) (k : Int) :
    (c.seekTo k).filter = c.filter := by
  unfold SeriesCursor.seekTo
  split <;> simp

theorem SeriesCursor.seekTo_data (c : SeriesCursor) (k : Int) :
    (c.seekTo k).cursor.data = c.cursor.data := by
  unfold SeriesCursor.seekTo
  split <;> rename_i heq <;>
    · have hd := ShardCursor.seek_data c.cursor k
      rw [heq] at hd
      simpa using hd

/-- A peeked cursor re-peeks to itself whenever its buffered timestamp is
not the -1 buffer sentinel. -/
theorem SeriesCursor.peek_peek (c : SeriesCursor) (h : c.peek.1.1 ≠ -1) :
    (c.peek.2).peek = ((c.peek.1.1, (c.peek.2).valueBuffer), c.peek.2) := by
  have hk := c.peek_keyBuffer
  rw [SeriesCursor.peek_of_buffered _ (by rw [hk]; exact h), hk]

/-- The peek timestamp of a series cursor. -/
def peekTs (c : SeriesCursor) : Int := c.peek.1.1

/-- The selection performed by nextCursorGo, on the peek timestamps alone:
walk the timestamps keeping the first in-range one, replaced whenever a
later in-range timestamp is strictly lower. -/
def selectGo (tmin tmax : Int) : List Int → Nat → Option (Nat × Int) → Option (Nat × Int)
  | [], _, best => best
  | t :: rest, i, best =>
    if inRange t tmin tmax then
      match best with
      | none => selectGo tmin tmax rest (i + 1) (some (i, t))
      | some (j, m) =>
        if t < m then selectGo tmin tmax rest (i + 1) (some (i, t))
        else selectGo tmin tmax rest (i + 1) (some (j, m))
    else selectGo tmin tmax rest (i + 1) best

theorem selectGo_eq_none (tmin tmax : Int) (ts : List Int) :
    ∀ (i0 : Nat) (best : Option (Nat × Int)),
    (selectGo tmin tmax ts i0 best = none ↔
      best = none ∧ ∀ t ∈ ts, inRange t tmin tmax = false) := by
  induction ts with
  | nil => intro i0 best; simp [selectGo]
  | cons t rest ih =>
    intro i0 best
    by_cases hr : inRange t tmin tmax
    · cases best with
      | none =>
        simp only [selectGo, hr, if_pos]
        rw [ih]
        simp [hr]
      | some b =>
        obtain ⟨j, m⟩ := b
        simp only [selectGo, hr, if_pos]
        by_cases hlt : t < m
        · rw [if_pos hlt, ih]; simp [hr]
        · rw [if_neg hlt, ih]; simp [hr]
    · simp only [selectGo, hr, if_neg, Bool.false_eq_true, not_false_iff]
      rw [ih]
      simp only [List.mem_cons]
      constructor
      · rintro ⟨h1, h2⟩
        refine ⟨h1, ?_⟩
        rintro x (rfl | hx)
        · simpa using hr
        · exact h2 x hx
      · rintro ⟨h1, h2⟩
        exact ⟨h1, fun x hx => h2 x (Or.inr hx)⟩

theorem selectGo_char (tmin tmax : Int) (ts : List Int) :
    ∀ (i0 : Nat) (best : Option (Nat × Int)),
    (∀ j m, best = some (j, m) → j < i0 ∧ inRange m tmin tmax = true) →
    ∀ i m, selectGo tmin tmax ts i0 best = some (i, m) →
      inRange m tmin tmax = true ∧
      (i < i0 → best = some (i, m)) ∧
      (i0 ≤ i → ts.get? (i - i0) = some m ∧ ∀ jb mb, best = some (jb, mb) → m < mb) ∧
      (∀ jb mb, best = some (jb, mb) → m ≤ mb) ∧
      (∀ k tk, ts.get? k = some tk → inRange tk tmin tmax = true →
        m ≤ tk ∧ (i0 + k < i → m < tk)) := by
  induction ts with
  | nil =>
    intro i0 best hbest i m hsel
    simp only [selectGo] at hsel
    obtain ⟨hj, hin⟩ := hbest i m hsel
    refine ⟨hin, fun _ => hsel, fun hle => absurd hj (by omega), ?_, ?_⟩
    · intro jb mb hb; rw [hsel] at hb; cases hb; rfl
    · intro k tk hk _; simp at hk
  | cons t rest ih =>
    intro i0 best hbest i m hsel
    by_cases hr : inRange t tmin tmax
    · cases best with
      | none =>
        simp only [selectGo, hr, if_pos] at hsel
        have hpre : ∀ j m', some (i0, t) = some (j, m') → j < i0 + 1 ∧ inRange m' tmin tmax = true := by
          intro j m' h; cases h; exact ⟨by omega, hr⟩
        obtain ⟨hin, hlt, hge, hvb, hall⟩ := ih (i0 + 1) (some (i0, t)) hpre i m hsel
        by_cases hii : i < i0 + 1
        · have hb := hlt hii
          cases hb
          refine ⟨hin, fun h => absurd h (by omega), ?_, by simp, ?_⟩
          · intro _
            refine ⟨by simp, by simp⟩
          · intro k tk hk hink
            cases k with
            | zero =>
              simp only [List.get?_cons_zero, Option.some_inj] at hk
              subst hk
              exact ⟨le_refl _, by omega⟩
            | succ k' =>
              simp only [List.get?_cons_succ] at hk
              obtain ⟨h1, h2⟩ := hall k' tk hk hink
              exact ⟨h1, fun hki => absurd hki (by omega)⟩
        · have hge' := hge (by omega)
          obtain ⟨hget, hvb'⟩ := hge'
          have hstrict : m < t := hvb' i0 t rfl
          refine ⟨hin, fun h => absurd h (by omega), ?_, by simp, ?_⟩
          · intro _
            have : i - i0 = (i - (i0 + 1)) + 1 := by omega
            rw [this, List.get?_cons_succ]
            exact ⟨hget, by simp⟩
          · intro k tk hk hink
            cases k with
            | zero =>
              simp only [List.get?_cons_zero, Option.some_inj] at hk
              subst hk
              exact ⟨le_of_lt hstrict, fun _ => hstrict⟩
            | succ k' =>
              simp only [List.get?_cons_succ] at hk
              obtain ⟨h1, h2⟩ := hall k' tk hk hink
              exact ⟨h1, fun hlt' => h2 (by omega)⟩
      | some b =>
        obtain ⟨jb, mb⟩ := b
        obtain ⟨hjb, hinb⟩ := hbest jb mb rfl
        simp only [selectGo, hr, if_pos] at hsel
        by_cases htm : t < mb
        · rw [if_pos htm] at hsel
          have hpre : ∀ j m', some (i0, t) = some (j, m') → j < i0 + 1 ∧ inRange m' tmin tmax = true := by
            intro j m' h; cases h; exact ⟨by omega, hr⟩
          obtain ⟨hin, hlt, hge, hvb, hall⟩ := ih (i0 + 1) (some (i0, t)) hpre i m hsel
          have hmt : m ≤ t := by
            by_cases hii : i < i0 + 1
            · have hb := hlt hii; cases hb; exact le_refl _
            · exact le_of_lt ((hge (by omega)).2 i0 t rfl)
          by_cases hii : i < i0 + 1
          · have hb := hlt hii
            cases hb
            refine ⟨hin, fun h => absurd h (by omega), ?_, ?_, ?_⟩
            · intro _
              refine ⟨by simp, ?_⟩
              intro jb' mb' hb'; cases hb'; exact htm
            · intro jb' mb' hb'; cases hb'; exact le_of_lt htm
            · intro k tk hk hink
              cases k with
              | zero =>
                simp only [List.get?_cons_zero, Option.some_inj] at hk
                subst hk
                exact ⟨le_refl _, by omega⟩
              | succ k' =>
                simp only [List.get?_cons_succ] at hk
                obtain ⟨h1, h2⟩ := hall k' tk hk hink
                exact ⟨h1, fun hki => absurd hki (by omega)⟩
          · have hge' := hge (by omega)
            obtain ⟨hget, hvb'⟩ := hge'
            have hstrict : m < t := hvb' i0 t rfl
            refine ⟨hin, fun h => absurd h (by omega), ?_, ?_, ?_⟩
            · intro _
              have : i - i0 = (i - (i0 + 1)) + 1 := by omega
              rw [this, List.get?_cons_succ]
              refine ⟨hget, ?_⟩
              intro jb' mb' hb'; cases hb'; exact lt_trans hstrict htm
            · intro jb' mb' hb'; cases hb'; exact le_of_lt (lt_trans hstrict htm)
            · intro k tk hk hink
              cases k with
              | zero =>
                simp only [List.get?_cons_zero, Option.some_inj] at hk
                subst hk
                exact ⟨le_of_lt hstrict, fun _ => hstrict⟩
              | succ k' =>
                simp only [List.get?_cons_succ] at hk
                obtain ⟨h1, h2⟩ := hall k' tk hk hink
                exact ⟨h1, fun hlt' => h2 (by omega)⟩
        · rw [if_neg htm] at hsel
          have hpre : ∀ j m', some (jb, mb) = some (j, m') → j < i0 + 1 ∧ inRange m' tmin tmax = true := by
            intro j m' h; cases h; exact ⟨by omega, hinb⟩
          obtain ⟨hin, hlt, hge, hvb, hall⟩ := ih (i0 + 1) (some (jb, mb)) hpre i m hsel
          have hmb : m ≤ mb := hvb jb mb rfl
          by_cases hii : i < i0 + 1
          · have hb := hlt hii
            have hij : i = jb ∧ m = mb := by cases hb; exact ⟨rfl, rfl⟩
            obtain ⟨rfl, rfl⟩ := hij
            refine ⟨hin, fun _ => rfl, fun h => absurd h (by omega), ?_, ?_⟩
            · intro jb' mb' hb'; cases hb'; exact le_refl _
            · intro k tk hk hink
              cases k with
              | zero =>
                simp only [List.get?_cons_zero, Option.some_inj] at hk
                subst hk
                exact ⟨not_lt.mp htm, fun hki => absurd hki (by omega)⟩
              | succ k' =>
                simp only [List.get?_cons_succ] at hk
                obtain ⟨h1, h2⟩ := hall k' tk hk hink
                exact ⟨h1, fun hki => absurd hki (by omega)⟩
          · have hge' := hge (by omega)
            obtain ⟨hget, hvb'⟩ := hge'
            have hstrict : m < mb := hvb' jb mb rfl
            refine ⟨hin, fun h => absurd h (by omega), ?_, ?_, ?_⟩
            · intro _
              have : i - i0 = (i - (i0 + 1)) + 1 := by omega
              rw [this, List.get?_cons_succ]
              refine ⟨hget, ?_⟩
              intro jb' mb' hb'; cases hb'; exact hstrict
            · intro jb' mb' hb'; cases hb'; exact le_of_lt hstrict
            · intro k tk hk hink
              cases k with
              | zero =>
                simp only [List.get?_cons_zero, Option.some_inj] at hk
                subst hk
                exact ⟨le_trans (le_of_lt hstrict) (not_lt.mp htm), fun _ => lt_of_lt_of_le hstrict (not_lt.mp htm)⟩
              | succ k' =>
                simp only [List.get?_cons_succ] at hk
                obtain ⟨h1, h2⟩ := hall k' tk hk hink
                exact ⟨h1, fun hlt' => h2 (by omega)⟩
    · simp only [selectGo, hr, Bool.false_eq_true, if_neg, not_false_iff] at hsel
      have hpre : ∀ j m', best = some (j, m') → j < i0 + 1 ∧ inRange m' tmin tmax = true := by
        intro j m' h; obtain ⟨h1, h2⟩ := hbest j m' h; exact ⟨by omega, h2⟩
      obtain ⟨hin, hlt, hge, hvb, hall⟩ := ih (i0 + 1) best hpre i m hsel
      refine ⟨hin, ?_, ?_, hvb, ?_⟩
      · intro hii
        by_cases hii' : i < i0 + 1
        · exact hlt hii'
        · obtain ⟨_, _⟩ := hge (by omega)
          omega
      · intro hii
        by_cases hii' : i < i0 + 1
        · have hb := hlt hii'
          obtain ⟨hjb, _⟩ := hbest i m hb
          omega
        · obtain ⟨hget, hvb'⟩ := hge (by omega)
          have : i - i0 = (i - (i0 + 1)) + 1 := by omega
          rw [this, List.get?_cons_succ]
          exact ⟨hget, hvb'⟩
      · intro k tk hk hink
        cases k with
        | zero =>
          simp only [List.get?_cons_zero, Option.some_inj] at hk
          subst hk
          simp_all
        | succ k' =>
          simp only [List.get?_cons_succ] at hk
          obtain ⟨h1, h2⟩ := hall k' tk hk hink
          exact ⟨h1, fun hlt' => h2 (by omega)⟩

theorem getD_concat_length {α : Type} (acc : List α) (x : α) (d : α) :
    (acc ++ [x]).getD acc.length d = x := by
  rw [List.getD_eq_getElem?_getD, List.getElem?_append_right (le_refl _)]
  simp

theorem getD_set_self {α : Type} (l : List α) (i : Nat) (a d : α) (h : i < l.length) :
    (l.set i a).getD i d = a := by
  rw [List.getD_eq_getElem?_getD, List.getElem?_set_self]
  · simp
  · simpa using h

theorem getD_set_ne {α : Type} (l : List α) (i j : Nat) (a d : α) (h : i ≠ j) :
    (l.set i a).getD j d = l.getD j d := by
  rw [List.getD_eq_getElem?_getD, List.getElem?_set_ne h, ← List.getD_eq_getElem?_getD]

theorem get?_eq_getD {α : Type} (l : List α) (i : Nat) (d : α) (h : i < l.length) :
    l.get? i = some (l.getD i d) := by
  rw [List.getD_eq_getElem?_getD, List.get?_eq_getElem?]
  cases hg : l[i]? with
  | none => simp [List.getElem?_eq_none_iff] at hg; omega
  | some v => simp

/-- An in-range timestamp is at least 1 when tmin is nonnegative (the
nonzero test plus the lower bound). -/
theorem inRange_one_le {t tmin tmax : Int} (htmin : 0 ≤ tmin)
    (h : inRange t tmin tmax = true) : 1 ≤ t := by
  unfold inRange at h
  simp only [Bool.and_eq_true, Bool.or_eq_true, beq_iff_eq, decide_eq_true_eq,
    bne_iff_ne, ne_eq] at h
  rcases h with ⟨h0, h1 | ⟨h2, _⟩⟩ <;> omega

theorem inRange_spec {t tmin tmax : Int} :
    inRange t tmin tmax = true ↔ t ≠ 0 ∧ (t = tmin ∨ (tmin ≤ t ∧ t < tmax)) := by
  unfold inRange
  simp only [Bool.and_eq_true, Bool.or_eq_true, beq_iff_eq, decide_eq_true_eq,
    bne_iff_ne, ne_eq]

/-- The running minimum viewed at the timestamp level. -/
def bestTs (acc : List SeriesCursor) : Option Nat → Option (Nat × Int)
  | none => none
  | some j => some (j, (acc.getD j default).keyBuffer)

/-- Well-formedness of the running minimum: a valid index whose cursor has a
buffered, in-range timestamp. -/
def bestWF (tmin tmax : Int) (acc : List SeriesCursor) : Option Nat → Prop
  | none => True
  | some j => j < acc.length ∧ (acc.getD j default).keyBuffer ≠ -1 ∧
      inRange (acc.getD j default).keyBuffer tmin tmax = true

/-- The selection loop of nextCursor computes exactly the timestamp-level
selection selectGo over the members' peek timestamps, provided tmin is
nonnegative; moreover the chosen index's cursor in the final member list has
the selected timestamp buffered. -/
theorem nextCursorGo_sim (tmin tmax : Int) (htmin : 0 ≤ tmin) (cs : List SeriesCursor) :
    ∀ (acc : List SeriesCursor) (best : Option Nat), bestWF tmin tmax acc best →
    (nextCursorGo tmin tmax acc cs best).1 =
      Option.map Prod.fst (selectGo tmin tmax (cs.map peekTs) acc.length (bestTs acc best)) ∧
    bestWF tmin tmax (nextCursorGo tmin tmax acc cs best).2 (nextCursorGo tmin tmax acc cs best).1 ∧
    (∀ i m, selectGo tmin tmax (cs.map peekTs) acc.length (bestTs acc best) = some (i, m) →
      ((nextCursorGo tmin tmax acc cs best).2.getD i default).keyBuffer = m) ∧
    (nextCursorGo tmin tmax acc cs best).2.length = acc.length + cs.length := by
  induction cs with
  | nil =>
    intro acc best hwf
    simp only [nextCursorGo, List.map_nil, selectGo, List.length_nil, Nat.add_zero]
    refine ⟨?_, hwf, ?_, by simp⟩
    · cases best <;> simp [bestTs]
    · intro i m hsel
      cases best with
      | none => simp [bestTs] at hsel
      | some j =>
        simp only [bestTs, Option.some_inj] at hsel
        cases hsel
        rfl
  | cons c rest ih =>
    intro acc best hwf
    have hpk := SeriesCursor.peek_keyBuffer c
    by_cases hr : inRange (peekTs c) tmin tmax
    all_goals have hr' : inRange c.peek.1.1 tmin tmax = inRange (peekTs c) tmin tmax := rfl
    · cases best with
      | none =>
        have hstep : nextCursorGo tmin tmax acc (c :: rest) none =
            nextCursorGo tmin tmax (acc ++ [c.peek.2]) rest (some acc.length) := by
          simp only [nextCursorGo]
          rw [hr', if_pos hr]
        have hsel : selectGo tmin tmax ((c :: rest).map peekTs) acc.length (bestTs acc none) =
            selectGo tmin tmax (rest.map peekTs) (acc.length + 1) (some (acc.length, peekTs c)) := by
          simp only [List.map_cons, selectGo, bestTs]
          rw [if_pos hr]
        have hgd : ((acc ++ [c.peek.2]).getD acc.length default).keyBuffer = peekTs c := by
          rw [getD_concat_length]
          exact hpk
        have hwf' : bestWF tmin tmax (acc ++ [c.peek.2]) (some acc.length) := by
          refine ⟨by simp, ?_, ?_⟩
          · rw [hgd]
            have := inRange_one_le htmin hr
            omega
          · rw [hgd]; exact hr
        obtain ⟨h1, h2, h3, h4⟩ := ih (acc ++ [c.peek.2]) (some acc.length) hwf'
        have hbt : bestTs (acc ++ [c.peek.2]) (some acc.length) = some (acc.length, peekTs c) := by
          simp only [bestTs, hgd]
        rw [hbt] at h1 h3
        rw [hstep, hsel]
        refine ⟨by simpa using h1, h2, by simpa using h3, by simp at h4 ⊢; omega⟩
      | some j =>
        obtain ⟨hj, hkb, hinb⟩ := hwf
        have hcj : (acc ++ [c.peek.2]).getD j default = acc.getD j default :=
          List.getD_append _ _ _ _ hj
        have hpj : (acc.getD j default).peek =
            (((acc.getD j default).keyBuffer, (acc.getD j default).valueBuffer),
              acc.getD j default) :=
          SeriesCursor.peek_of_buffered _ hkb
        have hstep : nextCursorGo tmin tmax acc (c :: rest) (some j) =
            (if peekTs c < (acc.getD j default).keyBuffer then
              nextCursorGo tmin tmax ((acc ++ [c.peek.2]).set j (acc.getD j default)) rest
                (some acc.length)
            else
              nextCursorGo tmin tmax ((acc ++ [c.peek.2]).set j (acc.getD j default)) rest
                (some j)) := by
          simp only [nextCursorGo]
          rw [hr', if_pos hr, hcj, hpj]
          rfl
        have hsel : selectGo tmin tmax ((c :: rest).map peekTs) acc.length (bestTs acc (some j)) =
            (if peekTs c < (acc.getD j default).keyBuffer then
              selectGo tmin tmax (rest.map peekTs) (acc.length + 1)
                (some (acc.length, peekTs c))
            else
              selectGo tmin tmax (rest.map peekTs) (acc.length + 1)
                (some (j, (acc.getD j default).keyBuffer))) := by
          simp only [List.map_cons, selectGo, bestTs]
          rw [if_pos hr]
        set acc2 := (acc ++ [c.peek.2]).set j (acc.getD j default) with hacc2
        have hlen2 : acc2.length = acc.length + 1 := by simp [hacc2]
        have hgdj : acc2.getD j default = acc.getD j default := by
          rw [hacc2]
          exact getD_set_self _ _ _ _ (by simp; omega)
        have hgdn : acc2.getD acc.length default = c.peek.2 := by
          rw [hacc2, getD_set_ne _ _ _ _ _ (by omega), getD_concat_length]
        by_cases hlt : peekTs c < (acc.getD j default).keyBuffer
        · rw [hstep, hsel, if_pos hlt, if_pos hlt]
          have hwf' : bestWF tmin tmax acc2 (some acc.length) := by
            refine ⟨by omega, ?_, ?_⟩
            · rw [hgdn, hpk]
              have hone : (1 : Int) ≤ c.peek.1.1 := inRange_one_le htmin hr
              omega
            · rw [hgdn, hpk]; exact hr
          obtain ⟨h1, h2, h3, h4⟩ := ih acc2 (some acc.length) hwf'
          have hbt : bestTs acc2 (some acc.length) = some (acc.length, peekTs c) := by
            simp only [bestTs, hgdn, hpk]
            rfl
          rw [hbt] at h1 h3
          rw [hlen2] at h1 h3 h4
          exact ⟨h1, h2, h3, by simp only [List.length_cons]; omega⟩
        · rw [hstep, hsel, if_neg hlt, if_neg hlt]
          have hwf' : bestWF tmin tmax acc2 (some j) := by
            refine ⟨by omega, ?_, ?_⟩
            · rw [hgdj]; exact hkb
            · rw [hgdj]; exact hinb
          obtain ⟨h1, h2, h3, h4⟩ := ih acc2 (some j) hwf'
          have hbt : bestTs acc2 (some j) = some (j, (acc.getD j default).keyBuffer) := by
            simp only [bestTs, hgdj]
          rw [hbt] at h1 h3
          rw [hlen2] at h1 h3 h4
          exact ⟨h1, h2, h3, by simp only [List.length_cons]; omega⟩
    · have hrF : inRange c.peek.1.1 tmin tmax = false := by
        have h := hr
        simp only [Bool.not_eq_true] at h
        exact h
      have hstep : nextCursorGo tmin tmax acc (c :: rest) best =
          nextCursorGo tmin tmax (acc ++ [c.peek.2]) rest best := by
        simp only [nextCursorGo, hrF, Bool.false_eq_true, if_false]
      have hsel : selectGo tmin tmax ((c :: rest).map peekTs) acc.length (bestTs acc best) =
          selectGo tmin tmax (rest.map peekTs) (acc.length + 1) (bestTs acc best) := by
        simp only [List.map_cons, selectGo]
        rw [if_neg hr]
      have hwf' : bestWF tmin tmax (acc ++ [c.peek.2]) best := by
        cases best with
        | none => trivial
        | some j =>
          obtain ⟨hj, hkb, hinb⟩ := hwf
          have hcj : (acc ++ [c.peek.2]).getD j default = acc.getD j default :=
            List.getD_append _ _ _ _ hj
          exact ⟨by simp; omega, by rw [hcj]; exact hkb, by rw [hcj]; exact hinb⟩
      obtain ⟨h1, h2, h3, h4⟩ := ih (acc ++ [c.peek.2]) best hwf'
      have hbt : bestTs (acc ++ [c.peek.2]) best = bestTs acc best := by
        cases best with
        | none => rfl
        | some j =>
          obtain ⟨hj, _, _⟩ := hwf
          simp only [bestTs, List.getD_append _ _ _ _ hj]
      rw [hbt] at h1 h3
      rw [hstep, hsel]
      have hl : (acc ++ [c.peek.2]).length = acc.length + 1 := by simp
      rw [hl] at h1 h3 h4
      exact ⟨h1, h2, h3, by simp; omega⟩

theorem getD_append_right {α : Type} (acc l : List α) (i : Nat) (d : α)
    (h : acc.length ≤ i) : (acc ++ l).getD i d = l.getD (i - acc.length) d := by
  rw [List.getD_eq_getElem?_getD, List.getElem?_append_right h, ← List.getD_eq_getElem?_getD]

/-- Any per-cursor observation preserved by Peek is preserved, pointwise, by
the selection loop (which only replaces cursors by peeked versions). -/
theorem nextCursorGo_pointwise {α : Type} (g : SeriesCursor → α)
    (hg : ∀ c, g c.peek.2 = g c) (tmin tmax : Int) (cs : List SeriesCursor) :
    ∀ (acc : List SeriesCursor) (best : Option Nat) (i : Nat),
      g ((nextCursorGo tmin tmax acc cs best).2.getD i default) =
        g ((acc ++ cs).getD i default) := by
  induction cs with
  | nil => intro acc best i; simp [nextCursorGo]
  | cons c rest ih =>
    intro acc best i
    have hacc : ∀ i, g (((acc ++ [c.peek.2]) ++ rest).getD i default) =
        g ((acc ++ c :: rest).getD i default) := by
      intro i
      have he : (acc ++ [c.peek.2]) ++ rest = acc ++ (c.peek.2 :: rest) := by simp
      rw [he]
      by_cases hi : i < acc.length
      · rw [List.getD_append _ _ _ _ hi, List.getD_append _ _ _ _ hi]
      · rw [getD_append_right _ _ _ _ (by omega), getD_append_right _ _ _ _ (by omega)]
        rcases Nat.exists_eq_add_of_le (Nat.le_of_not_lt hi) with ⟨k, rfl⟩
        simp only [Nat.add_sub_cancel_left]
        cases k with
        | zero => rw [List.getD_cons_zero, List.getD_cons_zero]; exact hg c
        | succ k' => rw [List.getD_cons_succ, List.getD_cons_succ]
    have hset : ∀ (j : Nat) (i : Nat),
        g ((((acc ++ [c.peek.2]).set j (((acc ++ [c.peek.2]).getD j default).peek.2)) ++ rest).getD i default) =
          g ((acc ++ c :: rest).getD i default) := by
      intro j i
      set acc' := acc ++ [c.peek.2] with hacc'
      by_cases hj : j < acc'.length
      · by_cases hij : i = j
        · subst hij
          have hil : i < acc'.length := hj
          rw [List.getD_append _ _ _ _ (by simpa using hil)]
          rw [getD_set_self _ _ _ _ hil, hg]
          have := hacc i
          rw [List.getD_append _ _ _ _ hil] at this
          exact this
        · by_cases hii : i < acc'.length
          · rw [List.getD_append _ _ _ _ (by simpa using hii),
              getD_set_ne _ _ _ _ _ (fun h => hij h.symm)]
            have := hacc i
            rw [List.getD_append _ _ _ _ hii] at this
            exact this
          · rw [getD_append_right _ _ _ _ (by simp only [List.length_set]; omega)]
            have := hacc i
            rw [getD_append_right _ _ _ _ (by omega)] at this
            simpa [List.length_set] using this
      · rw [List.set_eq_of_length_le (by omega)]
        exact hacc i
    cases best with
    | none =>
      simp only [nextCursorGo]
      by_cases hr : inRange c.peek.1.1 tmin tmax
      · rw [if_pos hr, ih]; exact hacc i
      · rw [if_neg hr, ih]; exact hacc i
    | some j =>
      simp only [nextCursorGo]
      by_cases hr : inRange c.peek.1.1 tmin tmax
      · rw [if_pos hr]
        by_cases hlt : c.peek.1.1 < ((acc ++ [c.peek.2]).getD j default).peek.1.1
        · rw [if_pos hlt, ih]; exact hset j i
        · rw [if_neg hlt, ih]; exact hset j i
      · rw [if_neg hr, ih]; exact hacc i

theorem nextCursorGo_length (tmin tmax : Int) (cs : List SeriesCursor) :
    ∀ (acc : List SeriesCursor) (best : Option Nat),
      (nextCursorGo tmin tmax acc cs best).2.length = acc.length + cs.length := by
  induction cs with
  | nil => intro acc best; simp [nextCursorGo]
  | cons c rest ih =>
    intro acc best
    cases best with
    | none =>
      simp only [nextCursorGo]
      by_cases hr : inRange c.peek.1.1 tmin tmax
      · rw [if_pos hr, ih]; simp only [List.length_append, List.length_cons,
          List.length_nil]; omega
      · rw [if_neg hr, ih]; simp only [List.length_append, List.length_cons,
          List.length_nil]; omega
    | some j =>
      simp only [nextCursorGo]
      by_cases hr : inRange c.peek.1.1 tmin tmax
      · rw [if_pos hr]
        by_cases hlt : c.peek.1.1 < ((acc ++ [c.peek.2]).getD j default).peek.1.1
        · rw [if_pos hlt, ih]; simp only [List.length_set, List.length_append,
            List.length_cons, List.length_nil]; omega
        · rw [if_neg hlt, ih]; simp only [List.length_set, List.length_append,
            List.length_cons, List.length_nil]; omega
      · rw [if_neg hr, ih]; simp only [List.length_append, List.length_cons,
          List.length_nil]; omega

theorem nextCursor_meta (tsc : TagSetCursor) (tmin tmax : Int) :
    ((tsc.nextCursor tmin tmax).2.measurement = tsc.measurement ∧
     (tsc.nextCursor tmin tmax).2.tags = tsc.tags ∧
     (tsc.nextCursor tmin tmax).2.decoder = tsc.decoder ∧
     (tsc.nextCursor tmin tmax).2.cursors.length = tsc.cursors.length) := by
  refine ⟨rfl, rfl, rfl, ?_⟩
  show (nextCursorGo tmin tmax [] tsc.cursors none).2.length = tsc.cursors.length
  rw [nextCursorGo_length]
  simp

theorem nextCursor_pointwise {α : Type} (g : SeriesCursor → α)
    (hg : ∀ c, g c.peek.2 = g c) (tsc : TagSetCursor) (tmin tmax : Int) (i : Nat) :
    g ((tsc.nextCursor tmin tmax).2.cursors.getD i default) =
      g (tsc.cursors.getD i default) := by
  show g ((nextCursorGo tmin tmax [] tsc.cursors none).2.getD i default) = _
  rw [nextCursorGo_pointwise g hg]
  simp

/-- nextCursor returns none exactly when no member cursor's peek timestamp
is in range (nonzero and admitted by the window), for nonnegative tmin. -/
theorem nextCursor_none_iff (tsc : TagSetCursor) (tmin tmax : Int) (htmin : 0 ≤ tmin) :
    (tsc.nextCursor tmin tmax).1 = none ↔
      ∀ t ∈ tsc.cursors.map peekTs, inRange t tmin tmax = false := by
  obtain ⟨h1, _, _, _⟩ := nextCursorGo_sim tmin tmax htmin tsc.cursors [] none trivial
  show (nextCursorGo tmin tmax [] tsc.cursors none).1 = none ↔ _
  rw [h1]
  constructor
  · intro h
    have hsg : selectGo tmin tmax (tsc.cursors.map peekTs)
        ([] : List SeriesCursor).length (bestTs [] none) = none :=
      Option.map_eq_none'.mp h
    exact ((selectGo_eq_none tmin tmax (tsc.cursors.map peekTs)
      ([] : List SeriesCursor).length (bestTs [] none)).mp hsg).2
  · intro h
    have hsg : selectGo tmin tmax (tsc.cursors.map peekTs)
        ([] : List SeriesCursor).length (bestTs [] none) = none :=
      (selectGo_eq_none tmin tmax (tsc.cursors.map peekTs)
        ([] : List SeriesCursor).length (bestTs [] none)).mpr ⟨rfl, h⟩
    rw [hsg]
    rfl

/-- When nextCursor selects index i (tmin nonnegative), the member's peek
timestamp is in range, is the minimum among all in-range peek timestamps,
strictly below every earlier in-range one, and the selected cursor in the
returned state has that timestamp buffered. -/
theorem nextCursor_some_spec (tsc : TagSetCursor) (tmin tmax : Int) (htmin : 0 ≤ tmin)
    (i : Nat) (h : (tsc.nextCursor tmin tmax).1 = some i) :
    ∃ m, (tsc.cursors.map peekTs).get? i = some m ∧ inRange m tmin tmax = true ∧
      (∀ k tk, (tsc.cursors.map peekTs).get? k = some tk → inRange tk tmin tmax = true →
        m ≤ tk ∧ (k < i → m < tk)) ∧
      ((tsc.nextCursor tmin tmax).2.cursors.getD i default).keyBuffer = m := by
  obtain ⟨h1, _, h3, _⟩ := nextCursorGo_sim tmin tmax htmin tsc.cursors [] none trivial
  have h' : (nextCursorGo tmin tmax [] tsc.cursors none).1 = some i := h
  rw [h1] at h'
  simp only [List.length_nil] at h' h3
  rcases hsg : selectGo tmin tmax (tsc.cursors.map peekTs) 0 (bestTs [] none) with _ | p
  · rw [hsg] at h'; simp at h'
  · obtain ⟨i', m⟩ := p
    rw [hsg] at h'
    have hii : i' = i := by simpa using h'
    subst hii
    have hbest : ∀ j m', (bestTs [] none : Option (Nat × Int)) = some (j, m') →
        j < 0 ∧ inRange m' tmin tmax = true := by
      intro j m' hb; simp [bestTs] at hb
    obtain ⟨hin, _, hge, _, hall⟩ :=
      selectGo_char tmin tmax (tsc.cursors.map peekTs) 0 (bestTs [] none) hbest i' m hsg
    obtain ⟨hget, _⟩ := hge (Nat.zero_le _)
    refine ⟨m, by simpa using hget, hin, ?_, h3 i' m hsg⟩
    intro k tk hk hink
    obtain ⟨hle, hlt⟩ := hall k tk hk hink
    exact ⟨hle, fun hki => hlt (by omega)⟩

theorem nextCursorGo_some_lt (tmin tmax : Int) (cs : List SeriesCursor) :
    ∀ (acc : List SeriesCursor) (best : Option Nat),
      (∀ j, best = some j → j < acc.length + cs.length) →
      ∀ i, (nextCursorGo tmin tmax acc cs best).1 = some i → i < acc.length + cs.length := by
  induction cs with
  | nil =>
    intro acc best hb i h
    simp only [nextCursorGo] at h
    simpa using hb i h
  | cons c rest ih =>
    intro acc best hb i h
    cases best with
    | none =>
      simp only [nextCursorGo] at h
      by_cases hr : inRange c.peek.1.1 tmin tmax
      · rw [if_pos hr] at h
        have := ih (acc ++ [c.peek.2]) (some acc.length)
          (by intro j hj
              cases hj
              simp only [List.length_append, List.length_cons, List.length_nil]
              omega) i h
        simp only [List.length_append, List.length_cons, List.length_nil] at this ⊢
        omega
      · rw [if_neg hr] at h
        have := ih (acc ++ [c.peek.2]) none (by intro j hj; cases hj) i h
        simp only [List.length_append, List.length_cons, List.length_nil] at this ⊢
        omega
    | some j =>
      have hj := hb j rfl
      simp only [List.length_cons] at hj
      simp only [nextCursorGo] at h
      by_cases hr : inRange c.peek.1.1 tmin tmax
      · rw [if_pos hr] at h
        by_cases hlt : c.peek.1.1 < ((acc ++ [c.peek.2]).getD j default).peek.1.1
        · rw [if_pos hlt] at h
          have := ih ((acc ++ [c.peek.2]).set j ((acc ++ [c.peek.2]).getD j default).peek.2)
            (some acc.length)
            (by intro j' hj'
                cases hj'
                simp only [List.length_set, List.length_append, List.length_cons,
                  List.length_nil]
                omega)
            i h
          simp only [List.length_set, List.length_append, List.length_cons,
            List.length_nil] at this ⊢
          omega
        · rw [if_neg hlt] at h
          have := ih ((acc ++ [c.peek.2]).set j ((acc ++ [c.peek.2]).getD j default).peek.2)
            (some j)
            (by intro j' hj'
                cases hj'
                simp only [List.length_set, List.length_append, List.length_cons,
                  List.length_nil]
                omega)
            i h
          simp only [List.length_set, List.length_append, List.length_cons,
            List.length_nil] at this ⊢
          omega
      · rw [if_neg hr] at h
        have := ih (acc ++ [c.peek.2]) (some j)
          (by intro j' hj'
              cases hj'
              simp only [List.length_append, List.length_cons, List.length_nil]
              omega)
          i h
        simp only [List.length_append, List.length_cons, List.length_nil] at this ⊢
        omega

theorem nextCursor_some_lt (tsc : TagSetCursor) (tmin tmax : Int) (i : Nat)
    (h : (tsc.nextCursor tmin tmax).1 = some i) : i < tsc.cursors.length := by
  have := nextCursorGo_some_lt tmin tmax tsc.cursors [] none (by intro j hj; cases hj) i h
  simpa using this

theorem nextAux_meta (fuel : Nat) :
    ∀ (tsc : TagSetCursor) (tmin tmax : Int) (sf wf : List String),
    ((TagSetCursor.nextAux fuel tsc tmin tmax sf wf).2.measurement = tsc.measurement ∧
     (TagSetCursor.nextAux fuel tsc tmin tmax sf wf).2.tags = tsc.tags ∧
     (TagSetCursor.nextAux fuel tsc tmin tmax sf wf).2.decoder = tsc.decoder ∧
     (TagSetCursor.nextAux fuel tsc tmin tmax sf wf).2.cursors.length = tsc.cursors.length) := by
  induction fuel with
  | zero => intro tsc _ _ _ _; exact ⟨rfl, rfl, rfl, rfl⟩
  | succ fuel ih =>
    intro tsc tmin tmax sf wf
    have hmeta := nextCursor_meta tsc tmin tmax
    rcases hnc : tsc.nextCursor tmin tmax with ⟨o, tsc'⟩
    rw [hnc] at hmeta
    simp only at hmeta
    obtain ⟨hm, ht, hd, hl⟩ := hmeta
    cases o with
    | none =>
      simp only [TagSetCursor.nextAux, hnc]
      exact ⟨hm, ht, hd, hl⟩
    | some i =>
      simp only [TagSetCursor.nextAux, hnc]
      split
      · rename_i hv
        have := ih ⟨tsc'.measurement, tsc'.tags,
          tsc'.cursors.set i ((tsc'.cursors.getD i default).next).2, tsc'.decoder⟩ tmin tmax sf wf
        simp only [List.length_set] at this
        obtain ⟨a, b, cc, d⟩ := this
        exact ⟨a.trans hm, b.trans ht, cc.trans hd, d.trans hl⟩
      · rename_i v hv
        refine ⟨hm, ht, hd, ?_⟩
        simp only [List.length_set]
        exact hl

theorem nextAux_pointwise {α : Type} (g : SeriesCursor → α)
    (hgp : ∀ c, g c.peek.2 = g c) (hgn : ∀ c, g c.next.2 = g c) (fuel : Nat) :
    ∀ (tsc : TagSetCursor) (tmin tmax : Int) (sf wf : List String) (k : Nat),
      g ((TagSetCursor.nextAux fuel tsc tmin tmax sf wf).2.cursors.getD k default) =
        g (tsc.cursors.getD k default) := by
  induction fuel with
  | zero => intro tsc _ _ _ _ _; rfl
  | succ fuel ih =>
    intro tsc tmin tmax sf wf k
    have hpw : ∀ k, g ((tsc.nextCursor tmin tmax).2.cursors.getD k default) =
        g (tsc.cursors.getD k default) := nextCursor_pointwise g hgp tsc tmin tmax
    rcases hnc : tsc.nextCursor tmin tmax with ⟨o, tsc'⟩
    simp only [hnc] at hpw
    cases o with
    | none =>
      simp only [TagSetCursor.nextAux, hnc]
      exact hpw k
    | some i =>
      simp only [TagSetCursor.nextAux, hnc]
      have hset : ∀ k, g ((tsc'.cursors.set i ((tsc'.cursors.getD i default).next).2).getD
          k default) = g (tsc.cursors.getD k default) := by
        intro k
        by_cases hi : i < tsc'.cursors.length
        · by_cases hk : k = i
          · subst hk
            rw [getD_set_self _ _ _ _ hi, hgn]
            exact hpw k
          · rw [getD_set_ne _ _ _ _ _ (fun h => hk h.symm)]
            exact hpw k
        · rw [List.set_eq_of_length_le (by omega)]
          exact hpw k
      split
      · rename_i hv
        have := ih ⟨tsc'.measurement, tsc'.tags,
          tsc'.cursors.set i ((tsc'.cursors.getD i default).next).2, tsc'.decoder⟩ tmin tmax sf wf k
        simp only at this
        exact this.trans (hset k)
      · rename_i v hv
        exact hset k

/-- Every value returned by the tag-set cursor loop (tmin nonnegative)
carries a timestamp equal to tmin or inside the half-open window. -/
theorem nextAux_bounds (tmin tmax : Int) (htmin : 0 ≤ tmin) (fuel : Nat) :
    ∀ (tsc : TagSetCursor) (sf wf : List String) (t : Int) (v : MapperValue)
      (tsc' : TagSetCursor),
      TagSetCursor.nextAux fuel tsc tmin tmax sf wf = ((t, some v), tsc') →
      t = tmin ∨ (tmin ≤ t ∧ t < tmax) := by
  induction fuel with
  | zero =>
    intro tsc sf wf t v tsc' h
    simp only [TagSetCursor.nextAux, Prod.mk.injEq] at h
    exact absurd h.1.2 (by simp)
  | succ fuel ih =>
    intro tsc sf wf t v tsc' h
    rcases hnc : tsc.nextCursor tmin tmax with ⟨o, tscn⟩
    cases o with
    | none =>
      simp only [TagSetCursor.nextAux, hnc, Prod.mk.injEq] at h
      exact absurd h.1.2 (by simp)
    | some i =>
      simp only [TagSetCursor.nextAux, hnc] at h
      obtain ⟨m, hget, hin, hmin, hkb⟩ :=
        nextCursor_some_spec tsc tmin tmax htmin i (by rw [hnc])
      rw [hnc] at hkb
      simp only at hkb
      split at h
      · exact ih _ sf wf t v tsc' h
      · rename_i v' heq
        have hm1 : (1 : Int) ≤ m := inRange_one_le htmin hin
        have hnb := SeriesCursor.next_of_buffered (tscn.cursors.getD i default)
          (by rw [hkb]; omega)
        simp only [Prod.mk.injEq] at h
        obtain ⟨⟨ht, _⟩, _⟩ := h
        rw [hnb] at ht
        simp only at ht
        rw [hkb] at ht
        subst ht
        rcases inRange_spec.mp hin with ⟨_, hd⟩
        exact hd

/-- Every value returned by the tag-set cursor loop is the successful
decode-and-filter of some member cursor's byte payload: a value failing its
filter, or failing to decode, never appears. -/
theorem nextAux_acceptable (fuel : Nat) :
    ∀ (tsc : TagSetCursor) (tmin tmax : Int) (sf wf : List String) (t : Int)
      (v : MapperValue) (tsc' : TagSetCursor),
      TagSetCursor.nextAux fuel tsc tmin tmax sf wf = ((t, some v), tsc') →
      ∃ k b, k < tsc.cursors.length ∧
        decodeValue tsc.decoder (tsc.cursors.getD k default).filter sf wf b = some v := by
  induction fuel with
  | zero =>
    intro tsc tmin tmax sf wf t v tsc' h
    simp only [TagSetCursor.nextAux, Prod.mk.injEq] at h
    exact absurd h.1.2 (by simp)
  | succ fuel ih =>
    intro tsc tmin tmax sf wf t v tsc' h
    rcases hnc : tsc.nextCursor tmin tmax with ⟨o, tscn⟩
    have hmeta := nextCursor_meta tsc tmin tmax
    rw [hnc] at hmeta
    simp only at hmeta
    obtain ⟨_, _, hdec, hlen⟩ := hmeta
    have hfil : ∀ k, (tscn.cursors.getD k default).filter =
        (tsc.cursors.getD k default).filter := by
      intro k
      have := nextCursor_pointwise (fun c => c.filter) SeriesCursor.peek_filter tsc tmin tmax k
      rw [hnc] at this
      exact this
    cases o with
    | none =>
      simp only [TagSetCursor.nextAux, hnc, Prod.mk.injEq] at h
      exact absurd h.1.2 (by simp)
    | some i =>
      have hi : i < tsc.cursors.length := nextCursor_some_lt tsc tmin tmax i (by rw [hnc])
      simp only [TagSetCursor.nextAux, hnc] at h
      split at h
      · rename_i heq
        obtain ⟨k, b, hk, hdv⟩ := ih _ tmin tmax sf wf t v tsc' h
        simp only [List.length_set] at hk
        refine ⟨k, b, by omega, ?_⟩
        have hfk : ((tscn.cursors.set i ((tscn.cursors.getD i default).next).2).getD
            k default).filter = (tsc.cursors.getD k default).filter := by
          by_cases hik : i = k
          · subst hik
            rw [getD_set_self _ _ _ _ (by omega), SeriesCursor.next_filter]
            exact hfil i
          · rw [getD_set_ne _ _ _ _ _ hik]
            exact hfil k
        rw [← hfk, ← hdec]
        exact hdv
      · rename_i v' heq
        rcases hbv : ((tscn.cursors.getD i default).next).1.2 with _ | b
        · rw [hbv] at heq
          simp at heq
        · rw [hbv] at heq
          simp only at heq
          simp only [Prod.mk.injEq] at h
          obtain ⟨⟨_, hv⟩, _⟩ := h
          obtain rfl : v' = v := Option.some_inj.mp hv
          exact ⟨i, b, hi, by rw [← hfil i, ← hdec]; exact heq⟩

/-- When no member peek timestamp is in range, the tag-set cursor loop
returns empty immediately. -/
theorem nextAux_empty (fuel : Nat) (tsc : TagSetCursor) (tmin tmax : Int)
    (sf wf : List String) (htmin : 0 ≤ tmin)
    (h : ∀ t ∈ tsc.cursors.map peekTs, inRange t tmin tmax = false) :
    (TagSetCursor.nextAux (fuel + 1) tsc tmin tmax sf wf).1 = (0, none) := by
  have hnone := (nextCursor_none_iff tsc tmin tmax htmin).mpr h
  rcases hnc : tsc.nextCursor tmin tmax with ⟨o, tscn⟩
  rw [hnc] at hnone
  simp only at hnone
  subst hnone
  simp only [TagSetCursor.nextAux, hnc]

/-! Concrete instances used by scenario theorems, counterexamples and
witnesses. -/

/-- A concrete codec: a byte token decodes, under the field name value, to
itself (as an Int); the full decode yields the one-entry field map. -/
def scodec : FieldCodec :=
  ⟨fun name b => if name = "value" then some (Int.ofNat b) else none,
   fun b => some [("value", Int.ofNat b)]⟩

/-- The section-8 scenario series: points (0,1), (5,9) persisted-and-
buffered merged in ascending order with (10,2), sought to the query minimum
time 0 exactly as RawMapper.Open does. -/
def c1Series : SeriesCursor :=
  (newSeriesCursor ⟨[(0, 1), (5, 9), (10, 2)], 0⟩ none).seekTo 0

/-- The scenario tag set: measurement cpu, tag set host=a, one series. -/
def c1TagSet : TagSetCursor := newTagSetCursor "cpu" [("host", "a")] [c1Series] scodec

/-- The scenario raw mapper: chunk size 10, query window 0 to 10 inclusive
(the exclusive upper bound 11 models the inclusive time constraint of the
query, matching the section-4.3 window convention under which the point at
t equal to 10 must be admitted). -/
def c1Mapper : RawMapper := ⟨10, 0, 11, ["value"], [], [c1TagSet], 0⟩

/-- C1: the spec scenario says the query over points (0,1),(5,9),(10,2)
with window starting at 0 yields one chunk [(0,1),(5,9),(10,2)].  The code
disagrees: seeking to the query minimum buffers the t equal to 0 point with
the lookahead sentinel timestamp 0, nextCursor then treats the series as
exhausted, and NextChunk returns end-of-stream without emitting any chunk —
the whole series, not just the first point, is lost. -/
theorem C1_raw_scenario_drops_all_data :
    c1Series.cursor.data = [(0, 1), (5, 9), (10, 2)] ∧
    c1Series.keyBuffer = 0 ∧ c1Series.valueBuffer = some 1 ∧
    (RawMapper.nextChunk 20 c1Mapper).1 = none := by
  refine ⟨rfl, ?_, ?_, ?_⟩ <;> decide

/-- A series cursor over a store holding the single real point (0,42),
sought to timestamp 0 (as the raw mapper's Open does for a query from 0). -/
def c2Cursor : SeriesCursor := (newSeriesCursor ⟨[(0, 42)], 0⟩ none).seekTo 0

/-- C2 counterexample: the claim says a Peek timestamp of 0 always denotes
an empty result and never carries an actual stored value.  Over a store
with a genuine entry at timestamp 0, Peek returns timestamp 0 together with
that entry's stored bytes: a real lookahead state at the reserved
sentinel. -/
theorem C2_counterexample :
    c2Cursor.peek.1 = (0, some 42) ∧ ((0 : Int), (42 : Bytes)) ∈ c2Cursor.cursor.data := by
  constructor <;> decide

/-- Two member series cursors: one whose first point is at timestamp 0 with
stored bytes 10, one whose first point is at timestamp 5 with bytes 20. -/
def c3CursorA : SeriesCursor := newSeriesCursor ⟨[(0, 10)], 0⟩ none

/-- The second member, peeking at timestamp 5. -/
def c3CursorB : SeriesCursor := newSeriesCursor ⟨[(5, 20)], 0⟩ none

/-- The two-member tag-set cursor of the C3 counterexample. -/
def c3TagSet : TagSetCursor := newTagSetCursor "m" [] [c3CursorA, c3CursorB] scodec

/-- The claim's in-range test as worded: timestamp equal to tmin, or inside
the half-open window — with no exclusion of the zero sentinel. -/
def specInRange (t tmin tmax : Int) : Bool :=
  t == tmin || (tmin ≤ t && t < tmax)

/-- The claim's selection rule as worded: the first member index attaining
the minimal in-range peek timestamp (ties won by the first such cursor). -/
def specNextCursorChoice (tmin tmax : Int) (ts : List Int) : Option Nat :=
  match ts.enum.filter (fun p => specInRange p.2 tmin tmax) with
  | [] => none
  | p :: rest => some ((rest.foldl (fun acc q => if q.2 < acc.2 then q else acc) p).1)

/-- C3 counterexample: with tmin equal to 0 and member peek timestamps 0 and
5, both are in range under the claim's wording and the lowest is the first
member (timestamp 0), but the code's nextCursor — whose range test also
requires a nonzero timestamp — selects the second member instead. -/
theorem C3_counterexample :
    (c3TagSet.nextCursor 0 100).1 = some 1 ∧
    specNextCursorChoice 0 100 (c3TagSet.cursors.map peekTs) = some 0 ∧
    peekTs c3CursorA = 0 ∧ specInRange 0 0 100 = true ∧
    (some 1 : Option Nat) ≠ some 0 := by
  refine ⟨?_, ?_, ?_, ?_, ?_⟩ <;> decide

/-- C3 (amended): for nonnegative tmin: every value returned by
tagSetCursor.Next has timestamp equal to tmin or inside [tmin, tmax); when
nextCursor selects a member cursor its peek timestamp is in range under the
code's test (which also excludes the zero sentinel), is the minimum among
all in-range member peeks, and is strictly below every earlier in-range
peek, so the first cursor wins ties; and nextCursor finds no cursor exactly
when no member peek is in range, in which case Next returns empty. -/
theorem C3_next_bounds_and_selection (tmin tmax : Int) (htmin : 0 ≤ tmin) :
    (∀ (fuel : Nat) (tsc : TagSetCursor) (sf wf : List String) (t : Int)
       (v : MapperValue) (tsc' : TagSetCursor),
       TagSetCursor.nextAux fuel tsc tmin tmax sf wf = ((t, some v), tsc') →
       t = tmin ∨ (tmin ≤ t ∧ t < tmax)) ∧
    (∀ (tsc : TagSetCursor) (i : Nat), (tsc.nextCursor tmin tmax).1 = some i →
       ∃ m, (tsc.cursors.map peekTs).get? i = some m ∧ inRange m tmin tmax = true ∧
         ∀ k tk, (tsc.cursors.map peekTs).get? k = some tk →
           inRange tk tmin tmax = true → m ≤ tk ∧ (k < i → m < tk)) ∧
    (∀ (tsc : TagSetCursor), (tsc.nextCursor tmin tmax).1 = none ↔
       ∀ t ∈ tsc.cursors.map peekTs, inRange t tmin tmax = false) ∧
    (∀ (fuel : Nat) (tsc : TagSetCursor) (sf wf : List String),
       (∀ t ∈ tsc.cursors.map peekTs, inRange t tmin tmax = false) →
       (TagSetCursor.nextAux (fuel + 1) tsc tmin tmax sf wf).1 = (0, none)) := by
  refine ⟨fun fuel tsc => nextAux_bounds tmin tmax htmin fuel tsc, ?_, ?_, ?_⟩
  · intro tsc i h
    obtain ⟨m, h1, h2, h3, _⟩ := nextCursor_some_spec tsc tmin tmax htmin i h
    exact ⟨m, h1, h2, h3⟩
  · intro tsc
    exact nextCursor_none_iff tsc tmin tmax htmin
  · intro fuel tsc sf wf h
    exact nextAux_empty fuel tsc tmin tmax sf wf htmin h

/-- A one-member tag-set cursor whose series holds the single point (2,7),
used to witness the amended C3 statement at tmin 1, tmax 10. -/
def c3wCursor : SeriesCursor := newSeriesCursor ⟨[(2, 7)], 0⟩ none

/-- The witness tag-set cursor for the amended C3 statement. -/
def c3wTagSet : TagSetCursor := newTagSetCursor "m" [] [c3wCursor] scodec

/-- Witness for the amended C3 statement: at tmin 1, tmax 10 the cursor over
point (2,7) returns timestamp 2 with value 7, and the theorem places 2
inside the window. -/
theorem C3_next_bounds_and_selection_witness :
    (0 : Int) ≤ 1 ∧
    TagSetCursor.nextAux 3 c3wTagSet 1 10 ["value"] [] =
      ((2, some (.single 7)), (TagSetCursor.nextAux 3 c3wTagSet 1 10 ["value"] []).2) ∧
    ((2 : Int) = 1 ∨ ((1 : Int) ≤ 2 ∧ (2 : Int) < 10)) :=
  ⟨by decide, by rfl,
   (C3_next_bounds_and_selection 1 10 (by decide)).1 3 c3wTagSet ["value"] [] 2
     (.single 7) (TagSetCursor.nextAux 3 c3wTagSet 1 10 ["value"] []).2 (by rfl)⟩

/-- C7: a candidate value that fails its series' WHERE filter, or whose
field decode fails, never appears in the returned stream — every returned
value is the successful decode-and-filter of some member's byte payload;
and when the chosen candidate's decode-or-filter result is empty, Next
continues the same call with only that candidate consumed, so skipping
affects a single point and never terminates the stream. -/
theorem C7_filter_decode_skip :
    (∀ (fuel : Nat) (tsc : TagSetCursor) (tmin tmax : Int) (sf wf : List String)
       (t : Int) (v : MapperValue) (tsc' : TagSetCursor),
       TagSetCursor.nextAux fuel tsc tmin tmax sf wf = ((t, some v), tsc') →
       ∃ k b, k < tsc.cursors.length ∧
         decodeValue tsc.decoder (tsc.cursors.getD k default).filter sf wf b = some v) ∧
    (∀ (fuel : Nat) (tsc : TagSetCursor) (tmin tmax : Int) (sf wf : List String)
       (i : Nat) (tscn : TagSetCursor),
       tsc.nextCursor tmin tmax = (some i, tscn) →
       (match ((tscn.cursors.getD i default).next).1.2 with
        | none => none
        | some b =>
          decodeValue tscn.decoder (tscn.cursors.getD i default).filter sf wf b) =
         (none : Option MapperValue) →
       TagSetCursor.nextAux (fuel + 1) tsc tmin tmax sf wf =
         TagSetCursor.nextAux fuel
           ⟨tscn.measurement, tscn.tags,
            tscn.cursors.set i ((tscn.cursors.getD i default).next).2, tscn.decoder⟩
           tmin tmax sf wf) := by
  constructor
  · intro fuel tsc tmin tmax
    exact nextAux_acceptable fuel tsc tmin tmax
  · intro fuel tsc tmin tmax sf wf i tscn hnc hval
    simp only [TagSetCursor.nextAux, hnc]
    rw [hval]

/-- A filter rejecting the field map whose value field is 3. -/
def c7Filter : Filter := fun m => decide (m ≠ [("value", (3 : Int))])

/-- A member series with a rejected point (1,3) followed by an accepted
point (2,7). -/
def c7Cursor : SeriesCursor := newSeriesCursor ⟨[(1, 3), (2, 7)], 0⟩ (some c7Filter)

/-- The witness tag-set cursor for C7. -/
def c7TagSet : TagSetCursor := newTagSetCursor "m" [] [c7Cursor] scodec

/-- Witness for C7: the stream skips the filtered point (1,3) and returns
(2,7), whose value the theorem exhibits as a decode-and-filter success. -/
theorem C7_filter_decode_skip_witness :
    TagSetCursor.nextAux 5 c7TagSet 1 10 ["value"] ["value"] =
      ((2, some (.single 7)), (TagSetCursor.nextAux 5 c7TagSet 1 10 ["value"] ["value"]).2) ∧
    (∃ k b, k < c7TagSet.cursors.length ∧
      decodeValue c7TagSet.decoder (c7TagSet.cursors.getD k default).filter
        ["value"] ["value"] b = some (.single 7)) :=
  ⟨by rfl,
   C7_filter_decode_skip.1 5 c7TagSet 1 10 ["value"] ["value"] 2 (.single 7)
     (TagSetCursor.nextAux 5 c7TagSet 1 10 ["value"] ["value"]).2 (by rfl)⟩

/-- Full behaviour of the SLIMIT/SOFFSET truncation fragment (shared by
both mappers) on nonnegative inputs with at least one of them set: an
offset beyond the count empties the list and leaves SLimit untouched;
otherwise the retained window is the drop/take slice with the limit clamped
to the remaining count, and the clamped limit is written back. -/
theorem slimitTagSets_spec {α : Type} (slimit soffset : Int) (l : List α)
    (hsl : 0 ≤ slimit) (hso : 0 ≤ soffset) (hset : 0 < slimit ∨ 0 < soffset) :
    (soffset > (l.length : Int) → rawSlimitTagSets slimit soffset l = ([], slimit)) ∧
    (soffset ≤ (l.length : Int) →
      rawSlimitTagSets slimit soffset l =
        ((l.drop soffset.toNat).take (min slimit ((l.length : Int) - soffset)).toNat,
         if soffset + slimit > (l.length : Int) then (l.length : Int) - soffset
         else slimit)) := by
  have hcond : (slimit > 0 || soffset > 0) = true := by
    simp only [Bool.or_eq_true, decide_eq_true_eq]
    omega
  constructor
  · intro hgt
    simp only [rawSlimitTagSets]
    rw [if_pos (by simpa using hcond), if_pos (by simpa using hgt)]
  · intro hle
    simp only [rawSlimitTagSets, goSlice]
    rw [if_pos (by simpa using hcond), if_neg (by simpa using hle)]
    by_cases hov : soffset + slimit > (l.length : Int)
    · rw [if_pos (by simpa using hov)]
      have h1 : soffset + ((l.length : Int) - soffset) - soffset =
          min slimit ((l.length : Int) - soffset) := by omega
      rw [h1]
    · rw [if_neg (by simpa using hov)]
      have h1 : soffset + slimit - soffset = min slimit ((l.length : Int) - soffset) := by
        omega
      rw [h1]

/-- C6: with SLIMIT or SOFFSET set (both nonnegative, at least one
positive), the tag-set truncation of RawMapper.Open and AggMapper.Open is
the same function; an SOFFSET beyond the tag-set count retains nothing;
otherwise the limit is clamped to the count remaining after the offset and
exactly that window of tag sets is retained. -/
theorem C6_slimit_soffset_truncation {α : Type} (slimit soffset : Int) (l : List α)
    (hsl : 0 ≤ slimit) (hso : 0 ≤ soffset) (hset : 0 < slimit ∨ 0 < soffset) :
    rawSlimitTagSets slimit soffset l = aggSlimitTagSets slimit soffset l ∧
    (soffset > (l.length : Int) → (rawSlimitTagSets slimit soffset l).1 = []) ∧
    (soffset ≤ (l.length : Int) →
      (rawSlimitTagSets slimit soffset l).1 =
        (l.drop soffset.toNat).take (min slimit ((l.length : Int) - soffset)).toNat) := by
  obtain ⟨h1, h2⟩ := slimitTagSets_spec slimit soffset l hsl hso hset
  refine ⟨rfl, ?_, ?_⟩
  · intro hgt
    rw [h1 hgt]
  · intro hle
    rw [h2 hle]

/-- Witness for C6: four tag sets, SLIMIT 5, SOFFSET 2 retains the last
two; SOFFSET 9 retains nothing. -/
theorem C6_slimit_soffset_truncation_witness :
    (0 : Int) ≤ 5 ∧ (0 : Int) ≤ 2 ∧
    (rawSlimitTagSets 5 2 ([10, 20, 30, 40] : List Nat)).1 = [30, 40] ∧
    (rawSlimitTagSets 5 9 ([10, 20, 30, 40] : List Nat)).1 = [] := by
  refine ⟨by decide, by decide, ?_, ?_⟩
  · have h := (C6_slimit_soffset_truncation 5 2 ([10, 20, 30, 40] : List Nat)
      (by decide) (by decide) (Or.inl (by decide))).2.2 (by decide)
    rw [h]
    decide
  · have h := (C6_slimit_soffset_truncation 5 9 ([10, 20, 30, 40] : List Nat)
      (by decide) (by decide) (Or.inl (by decide))).2.1 (by decide)
    rw [h]

/-- C10: whenever the clamp applies (SLIMIT or SOFFSET set, offset within
the tag-set count, and the window overruns the count), both the raw and the
aggregate Open write the clamped limit — the count remaining after the
offset — back into the statement's SLimit field, and that value differs
from the original SLimit: the caller-supplied statement is mutated. -/
theorem C10_open_mutates_slimit {α : Type} (slimit soffset : Int) (l : List α)
    (hsl : 0 ≤ slimit) (hso : 0 ≤ soffset) (hset : 0 < slimit ∨ 0 < soffset)
    (hoff : soffset ≤ (l.length : Int)) (hover : (l.length : Int) < soffset + slimit) :
    (rawSlimitTagSets slimit soffset l).2 = (l.length : Int) - soffset ∧
    (aggSlimitTagSets slimit soffset l).2 = (l.length : Int) - soffset ∧
    (rawSlimitTagSets slimit soffset l).2 ≠ slimit := by
  obtain ⟨_, h2⟩ := slimitTagSets_spec slimit soffset l hsl hso hset
  have hr : (rawSlimitTagSets slimit soffset l).2 = (l.length : Int) - soffset := by
    rw [h2 hoff]
    simp only
    rw [if_pos (by omega)]
  refine ⟨hr, ?_, ?_⟩
  · have : aggSlimitTagSets slimit soffset l = rawSlimitTagSets slimit soffset l := rfl
    rw [this, hr]
  · rw [hr]
    omega

/-- Witness for C10: three tag sets, SLIMIT 5, SOFFSET 1: the written-back
SLimit is 2, which differs from the original 5. -/
theorem C10_open_mutates_slimit_witness :
    (rawSlimitTagSets 5 1 ([10, 20, 30] : List Nat)).2 = 2 ∧
    (rawSlimitTagSets 5 1 ([10, 20, 30] : List Nat)).2 ≠ 5 := by
  have h := C10_open_mutates_slimit 5 1 ([10, 20, 30] : List Nat)
    (by decide) (by decide) (Or.inl (by decide)) (by decide) (by decide)
  exact ⟨h.1, h.2.2⟩

/-- C5 counterexample: with ceiling 2, base interval count 6 (which exceeds
the ceiling) and interval offset 7 greater than the count, Open returns
success early (before the ceiling check), building no cursors — it does not
fail with an error as the claim requires. -/
theorem C5_counterexample :
    aggOpenWindow 2 1 10 2 0 7 = .earlyOk ⟨1, 10, 2, 6, 0⟩ ∧
    aggBaseIntervals 1 10 2 = 6 ∧ (6 : Int) > 2 ∧
    (∀ msg, aggOpenWindow 2 1 10 2 0 7 ≠ .err msg) := by
  refine ⟨by decide, by decide, by decide, ?_⟩
  intro msg h
  have he : aggOpenWindow 2 1 10 2 0 7 = .earlyOk ⟨1, 10, 2, 6, 0⟩ := by decide
  rw [he] at h
  exact AggOpenResult.noConfusion h

/-- C5 (amended): provided the interval offset does not skip past all
intervals (which makes Open return success early, before the ceiling
check), a computed interval count above the ceiling makes Open fail with
the descriptive too-many-points error; and a mapper whose Open failed has
no cursors, so NextChunk immediately returns end-of-stream — no chunks are
produced. -/
theorem C5_interval_ceiling (maxPts tmin tmax d lim off : Int)
    (hoff : (lim > 0 ∨ off > 0) → off ≤ aggBaseIntervals tmin tmax d)
    (hceil : aggFinalIntervals tmin tmax d lim off > maxPts) :
    aggOpenWindow maxPts tmin tmax d lim off =
      .err "too many points in the group by interval. maybe you forgot to specify a where time clause?" ∧
    (∀ (fuel : Nat) (am : AggMapper), am.cursors = [] → am.currCursorIndex = 0 →
      (AggMapper.nextChunkAux fuel am).1 = none) := by
  constructor
  · simp only [aggOpenWindow, aggFinalIntervals] at hceil ⊢
    by_cases hlo : lim > 0 ∨ off > 0
    · rw [if_pos (by simpa using (by exact hlo : lim > 0 ∨ off > 0))] at hceil ⊢
      rw [if_neg (by have := hoff hlo; omega)]
      rw [if_pos hceil]
    · rw [if_neg (by simpa using hlo)] at hceil ⊢
      rw [if_pos hceil]
  · intro fuel am hc hi
    cases fuel with
    | zero => rfl
    | succ fuel =>
      simp only [AggMapper.nextChunkAux, hc, hi, List.length_nil, if_pos]

/-- Witness for C5 (amended): ceiling 2, no interval limit or offset, base
count 6: Open errors and an empty-cursor mapper yields no chunk. -/
theorem C5_interval_ceiling_witness :
    aggOpenWindow 2 1 10 2 0 0 =
      .err "too many points in the group by interval. maybe you forgot to specify a where time clause?" ∧
    (∀ (fuel : Nat) (am : AggMapper), am.cursors = [] → am.currCursorIndex = 0 →
      (AggMapper.nextChunkAux fuel am).1 = none) :=
  C5_interval_ceiling 2 1 10 2 0 0 (by intro h; exact absurd h (by decide)) (by decide)

/-- The nanosecond count of one hour, for the GROUP BY time scenario. -/
def hourNs : Int := 3600000000000

/-- An aggregate map function counting the values it is fed. -/
def cntFunc : MapFunc := fun l => (l.length : Int)

/-- First tag set of the windowing scenario (no member series needed: a
chunk is emitted per interval regardless of data). -/
def c4TagSetA : TagSetCursor := newTagSetCursor "cpu" [("host", "a")] [] scodec

/-- Second tag set of the windowing scenario. -/
def c4TagSetB : TagSetCursor := newTagSetCursor "cpu" [("host", "b")] [] scodec

/-- The window AggMapper.Open computes for GROUP BY time(1h) over the
hour-aligned three-hour range [1h, 4h-1ns]. -/
def c4Window : AggWindow := ⟨hourNs, 4 * hourNs - 1, hourNs, 3, hourNs⟩

/-- The aggregate mapper for the windowing scenario, carrying exactly the
window fields Open computes, one count function, and two tag sets. -/
def c4Mapper : AggMapper :=
  ⟨hourNs, hourNs, 4 * hourNs - 1, hourNs, [cntFunc], ["value"], [], 3, 0, 0,
    [c4TagSetA, c4TagSetB], 0⟩

/-- C4 counterexample: for the nonzero but negative query minimum time
-30min (ns) with d one hour, the code's truncating division yields interval
count 1 and window start 0, whereas the claim's floored-boundary span
divided by d is 2 (with floor-aligned bottom boundary -1h): for negative
times the count is not the floored span divided by d. -/
theorem C4_counterexample :
    aggOpenWindow 1000000 (-1800000000000) 1800000000000 3600000000000 0 0 =
      .ok ⟨-1800000000000, 1800000000000, 3600000000000, 1, 0⟩ ∧
    ((1800000000000 : Int).fdiv 3600000000000 * 3600000000000 + 3600000000000 -
      (-1800000000000 : Int).fdiv 3600000000000 * 3600000000000).fdiv 3600000000000 = 2 ∧
    (1 : Int) ≠ 2 := by
  refine ⟨by decide, by decide, by decide⟩

/-- C4 (amended): for a positive query minimum time (for a negative one,
counterexample: the code truncates toward zero instead of flooring) and a
positive GROUP BY duration d, the computed interval count is the span
between the floor-aligned boundaries below tmin and above tmax divided by
d, and the window start is tmin floored to a boundary; for GROUP BY
time(1h) over a three-hour hour-aligned range, the mapper emits exactly 3
chunks per tag set, tagged with the floor-aligned interval starts in
ascending order; with the GROUP BY duration absent (zero) or a zero query
minimum time, the whole query range becomes a single interval. -/
theorem C4_interval_windowing :
    (∀ (maxPts tmin tmax d : Int) (w : AggWindow), 0 < tmin → 0 < d → tmin ≤ tmax →
       aggOpenWindow maxPts tmin tmax d 0 0 = .ok w →
       w.numIntervals = (tmax.fdiv d * d + d - tmin.fdiv d * d).fdiv d ∧
       w.queryTMinWindow = tmin.fdiv d * d ∧ w.intervalSize = d) ∧
    (aggOpenWindow 100000 hourNs (4 * hourNs - 1) hourNs 0 0 = .ok c4Window ∧
     collectAggChunks 20 c4Mapper =
       [⟨"cpu", [("host", "a")], hourNs, [0]⟩, ⟨"cpu", [("host", "a")], 2 * hourNs, [0]⟩,
        ⟨"cpu", [("host", "a")], 3 * hourNs, [0]⟩, ⟨"cpu", [("host", "b")], hourNs, [0]⟩,
        ⟨"cpu", [("host", "b")], 2 * hourNs, [0]⟩, ⟨"cpu", [("host", "b")], 3 * hourNs, [0]⟩]) ∧
    (∀ (maxPts tmin tmax d : Int), 1 ≤ maxPts → (tmin = 0 ∨ d = 0) →
       ∃ w, aggOpenWindow maxPts tmin tmax d 0 0 = .ok w ∧
         w.numIntervals = 1 ∧ w.intervalSize = tmax - tmin) := by
  refine ⟨?_, ⟨by decide, by decide⟩, ?_⟩
  · intro maxPts tmin tmax d w htmin hd hle hok
    have hne : ¬(tmin == 0 || d == 0) = true := by
      simp only [Bool.or_eq_true, beq_iff_eq]
      omega
    have ha : tmax.tdiv d = tmax.fdiv d := (Int.fdiv_eq_tdiv (by omega) (by omega)).symm
    have hb : tmin.tdiv d = tmin.fdiv d := (Int.fdiv_eq_tdiv (by omega) (by omega)).symm
    have hbase : aggBaseIntervals tmin tmax d =
        (tmax.fdiv d * d + d - tmin.fdiv d * d).fdiv d := by
      simp only [aggBaseIntervals]
      rw [if_neg hne, ha, hb]
      have hfact : tmax.fdiv d * d + d - tmin.fdiv d * d =
          (tmax.fdiv d + 1 - tmin.fdiv d) * d := by ring
      rw [hfact, Int.mul_tdiv_cancel _ (by omega), Int.mul_fdiv_cancel _ (by omega)]
    have hsize : aggIntervalSize tmin tmax d = d := by
      simp only [aggIntervalSize]
      rw [if_neg hne]
    simp only [aggOpenWindow] at hok
    rw [if_neg (by simp)] at hok
    split at hok
    · exact absurd hok (by simp)
    · rename_i hceil
      simp only [AggOpenResult.ok.injEq] at hok
      subst hok
      simp only
      rw [hsize]
      refine ⟨hbase, ?_, rfl⟩
      rw [if_pos (by omega), hb]
  · intro maxPts tmin tmax d hmax hdeg
    have hz : (tmin == 0 || d == 0) = true := by
      simp only [Bool.or_eq_true, beq_iff_eq]
      omega
    have hbase : aggBaseIntervals tmin tmax d = 1 := by
      simp only [aggBaseIntervals]
      rw [if_pos hz]
    have hsize : aggIntervalSize tmin tmax d = tmax - tmin := by
      simp only [aggIntervalSize]
      rw [if_pos hz]
    refine ⟨⟨tmin, tmax, tmax - tmin, 1,
      if tmax - tmin > 0 then tmin.tdiv (tmax - tmin) * (tmax - tmin) else tmin⟩, ?_, rfl, rfl⟩
    simp only [aggOpenWindow]
    rw [if_neg (by simp), hbase, hsize]
    rw [if_neg (by omega)]

/-- Witness for the amended C4 statement at the scenario window: the
computed count 3 equals the floored-span formula and the window start is
floor-aligned. -/
theorem C4_interval_windowing_witness :
    (0 : Int) < hourNs ∧
    c4Window.numIntervals =
      ((4 * hourNs - 1).fdiv hourNs * hourNs + hourNs - hourNs.fdiv hourNs * hourNs).fdiv hourNs ∧
    c4Window.queryTMinWindow = hourNs.fdiv hourNs * hourNs ∧
    c4Window.intervalSize = hourNs :=
  ⟨by decide,
   C4_interval_windowing.1 100000 hourNs (4 * hourNs - 1) hourNs c4Window
     (by decide) (by decide) (by decide) (by decide)⟩

/-- Once the raw chunk loop has started accumulating (a pending chunk from
the current tag-set cursor), the returned chunk keeps the pending name and
tags and its values are exactly the single-cursor accumulation drainChunk
of the current cursor. -/
theorem nextChunkAux_accum (fuel : Nat) :
    ∀ (rm : RawMapper) (n : String) (tg : List (String × String))
      (vs : List (Int × MapperValue)) (o : RawMapperOutput) (rm' : RawMapper),
      rm.currCursorIndex < rm.cursors.length →
      RawMapper.nextChunkAux fuel rm (some ⟨n, tg, vs⟩) = (some o, rm') →
      o.name = n ∧ o.tags = tg ∧
      o.values = (drainChunk rm.chunkSize rm.queryTMin rm.queryTMax rm.selectFields
        rm.whereFields fuel (rm.cursors.getD rm.currCursorIndex default) vs).1 := by
  induction fuel with
  | zero =>
    intro rm n tg vs o rm' hlt h
    simp only [RawMapper.nextChunkAux, Prod.mk.injEq] at h
    exact absurd h.1 (by simp)
  | succ fuel ih =>
    intro rm n tg vs o rm' hlt h
    have hne : ¬rm.currCursorIndex = rm.cursors.length := by omega
    simp only [RawMapper.nextChunkAux, if_neg hne] at h
    rcases hr : TagSetCursor.nextAux (fuel + 1) (rm.cursors.getD rm.currCursorIndex default)
      rm.queryTMin rm.queryTMax rm.selectFields rm.whereFields with ⟨⟨k, vo⟩, cur2⟩
    rw [hr] at h
    simp only [drainChunk, hr]
    cases vo with
    | none =>
      simp only [Prod.mk.injEq, Option.some_inj] at h
      obtain ⟨rfl, _⟩ := h
      exact ⟨rfl, rfl, rfl⟩
    | some v =>
      simp only at h
      by_cases hfull : ((vs ++ [(k, v)]).length : Int) == rm.chunkSize
      · rw [if_pos hfull] at h
        dsimp only
        rw [if_pos hfull]
        simp only [Prod.mk.injEq, Option.some_inj] at h
        obtain ⟨rfl, _⟩ := h
        exact ⟨rfl, rfl, rfl⟩
      · rw [if_neg hfull] at h
        dsimp only
        rw [if_neg hfull]
        have hstep := ih ⟨rm.chunkSize, rm.queryTMin, rm.queryTMax, rm.selectFields,
          rm.whereFields, rm.cursors.set rm.currCursorIndex cur2, rm.currCursorIndex⟩
          n tg (vs ++ [(k, v)]) o rm' (by simpa using hlt) h
        simp only at hstep
        rw [getD_set_self _ _ _ _ hlt] at hstep
        exact hstep

/-- A tag-set cursor with no member series yields no value. -/
theorem nextAux_default_empty (fuel : Nat) (tmin tmax : Int) (sf wf : List String) :
    (TagSetCursor.nextAux (fuel + 1) (default : TagSetCursor) tmin tmax sf wf).1 =
      (0, none) := rfl

/-- Every chunk the raw chunk loop emits (starting with no pending chunk)
is named and tagged by a single tag-set cursor at or after the current
index, and its values are exactly a single-cursor accumulation of that
cursor: no chunk mixes two tag sets. -/
theorem nextChunkAux_single_source (fuel : Nat) :
    ∀ (rm : RawMapper) (o : RawMapperOutput) (rm' : RawMapper),
      RawMapper.nextChunkAux fuel rm none = (some o, rm') →
      ∃ i fuel₀, rm.currCursorIndex ≤ i ∧ i < rm.cursors.length ∧
        o.name = (rm.cursors.getD i default).measurement ∧
        o.tags = (rm.cursors.getD i default).tags ∧
        o.values = (drainChunk rm.chunkSize rm.queryTMin rm.queryTMax rm.selectFields
          rm.whereFields fuel₀ (rm.cursors.getD i default) []).1 := by
  induction fuel with
  | zero =>
    intro rm o rm' h
    simp only [RawMapper.nextChunkAux, Prod.mk.injEq] at h
    exact absurd h.1 (by simp)
  | succ fuel ih =>
    intro rm o rm' h
    by_cases hend : rm.currCursorIndex = rm.cursors.length
    · simp only [RawMapper.nextChunkAux, if_pos hend, Prod.mk.injEq] at h
      exact absurd h.1 (by simp)
    · simp only [RawMapper.nextChunkAux, if_neg hend] at h
      rcases hr : TagSetCursor.nextAux (fuel + 1) (rm.cursors.getD rm.currCursorIndex default)
        rm.queryTMin rm.queryTMax rm.selectFields rm.whereFields with ⟨⟨k, vo⟩, cur2⟩
      rw [hr] at h
      cases vo with
      | none =>
        simp only at h
        obtain ⟨i, fuel₀, hge, hlen, hn, ht, hv⟩ := ih _ o rm' h
        simp only [List.length_set] at hlen
        have hne : rm.currCursorIndex ≠ i := by simp only at hge; omega
        have hgd : (rm.cursors.set rm.currCursorIndex cur2).getD i default =
            rm.cursors.getD i default := getD_set_ne _ _ _ _ _ hne
        simp only [hgd] at hn ht hv
        simp only at hge
        exact ⟨i, fuel₀, by omega, hlen, hn, ht, hv⟩
      | some v =>
        by_cases hidx : rm.currCursorIndex < rm.cursors.length
        · simp only [List.nil_append] at h
          by_cases hfull : (([((k : Int), v)].length : Int) == rm.chunkSize)
          · rw [if_pos hfull] at h
            simp only [Prod.mk.injEq, Option.some_inj] at h
            obtain ⟨rfl, _⟩ := h
            refine ⟨rm.currCursorIndex, fuel + 1, le_refl _, hidx, rfl, rfl, ?_⟩
            simp only [drainChunk, hr, List.nil_append]
            rw [if_pos hfull]
          · rw [if_neg hfull] at h
            have hstep := nextChunkAux_accum fuel ⟨rm.chunkSize, rm.queryTMin, rm.queryTMax,
              rm.selectFields, rm.whereFields, rm.cursors.set rm.currCursorIndex cur2,
              rm.currCursorIndex⟩
              (rm.cursors.getD rm.currCursorIndex default).measurement
              (rm.cursors.getD rm.currCursorIndex default).tags
              [(k, v)] o rm' (by simpa using hidx) h
            obtain ⟨hn, ht, hv⟩ := hstep
            simp only [getD_set_self _ _ _ _ hidx] at hv
            refine ⟨rm.currCursorIndex, fuel + 1, le_refl _, hidx, hn, ht, ?_⟩
            simp only [drainChunk, hr, List.nil_append]
            rw [if_neg hfull]
            exact hv
        · exfalso
          have hge : rm.cursors.length ≤ rm.currCursorIndex := by omega
          have hdef : rm.cursors.getD rm.currCursorIndex default = default := by
            rw [List.getD_eq_getElem?_getD, List.getElem?_eq_none hge]
            rfl
          have hemp := nextAux_default_empty fuel rm.queryTMin rm.queryTMax
            rm.selectFields rm.whereFields
          rw [← hdef, hr] at hemp
          simp at hemp

/-- The single-cursor accumulation never exceeds the chunk size when the
pending accumulator is still below it. -/
theorem drainChunk_length (csize tmin tmax : Int) (sf wf : List String) (fuel : Nat) :
    ∀ (c : TagSetCursor) (acc : List (Int × MapperValue)),
      (acc.length : Int) < csize →
      (((drainChunk csize tmin tmax sf wf fuel c acc).1.length : Int)) ≤ csize := by
  induction fuel with
  | zero =>
    intro c acc hacc
    simp only [drainChunk, List.length_nil]
    omega
  | succ fuel ih =>
    intro c acc hacc
    simp only [drainChunk]
    rcases hr : TagSetCursor.nextAux (fuel + 1) c tmin tmax sf wf with ⟨⟨k, vo⟩, cur2⟩
    cases vo with
    | none => simpa using le_of_lt hacc
    | some v =>
      simp only
      by_cases hfull : ((acc ++ [(k, v)]).length : Int) == csize
      · rw [if_pos hfull]
        dsimp only
        simp only [beq_iff_eq] at hfull
        omega
      · rw [if_neg hfull]
        apply ih
        simp only [beq_iff_eq] at hfull
        simp only [List.length_append, List.length_cons, List.length_nil] at hfull ⊢
        push_cast at hfull ⊢
        omega

/-- A raw mapper with chunk size 0, over a one-point series: used to refute
the unconditional chunk-size bound. -/
def c9Series : SeriesCursor := (newSeriesCursor ⟨[(1, 7)], 0⟩ none).seekTo 1

/-- The tag-set cursor of the C9 counterexample. -/
def c9TagSet : TagSetCursor := newTagSetCursor "m" [] [c9Series] scodec

/-- The chunk-size-0 raw mapper of the C9 counterexample. -/
def c9Mapper : RawMapper := ⟨0, 1, 10, ["value"], [], [c9TagSet], 0⟩

/-- C9 counterexample: with the configured chunk size 0 the loop's equality
test never fires, and NextChunk returns a chunk with 1 value, exceeding the
configured size — the bound does not hold for nonpositive chunk sizes. -/
theorem C9_counterexample :
    (RawMapper.nextChunk 20 c9Mapper).1 = some ⟨"m", [], [(1, .single 7)]⟩ ∧
    c9Mapper.chunkSize = 0 ∧ ¬((1 : Int) ≤ 0) := by
  refine ⟨by decide, by decide, by decide⟩

/-- C9 (amended): for a positive configured chunk size, every chunk
NextChunk returns holds at most chunkSize values, and each chunk's
measurement name, tag values and entire value sequence come from exactly
one member tag-set cursor (a single-cursor accumulation of the cursor at
one index): no chunk mixes two tag sets. -/
theorem C9_chunk_bound_single_tagset (fuel : Nat) (rm : RawMapper) (o : RawMapperOutput)
    (rm' : RawMapper) (hcs : 1 ≤ rm.chunkSize)
    (h : RawMapper.nextChunk fuel rm = (some o, rm')) :
    ((o.values.length : Int)) ≤ rm.chunkSize ∧
    ∃ i fuel₀, rm.currCursorIndex ≤ i ∧ i < rm.cursors.length ∧
      o.name = (rm.cursors.getD i default).measurement ∧
      o.tags = (rm.cursors.getD i default).tags ∧
      o.values = (drainChunk rm.chunkSize rm.queryTMin rm.queryTMax rm.selectFields
        rm.whereFields fuel₀ (rm.cursors.getD i default) []).1 := by
  obtain ⟨i, fuel₀, h1, h2, h3, h4, h5⟩ := nextChunkAux_single_source fuel rm o rm' h
  refine ⟨?_, i, fuel₀, h1, h2, h3, h4, h5⟩
  rw [h5]
  exact drainChunk_length rm.chunkSize rm.queryTMin rm.queryTMax rm.selectFields
    rm.whereFields fuel₀ (rm.cursors.getD i default) [] (by simp; omega)

/-- A chunk-size-2 raw mapper over a three-point series, to witness the
amended C9 statement. -/
def c9wSeries : SeriesCursor := (newSeriesCursor ⟨[(1, 7), (2, 8), (3, 9)], 0⟩ none).seekTo 1

/-- The witness mapper: chunk size 2, window 1 to 9. -/
def c9wMapper : RawMapper := ⟨2, 1, 10, ["value"], [], [newTagSetCursor "m" [] [c9wSeries] scodec], 0⟩

/-- Witness for the amended C9 statement: the first chunk of the witness
mapper has 2 values, within the configured chunk size 2, from one tag
set. -/
theorem C9_chunk_bound_single_tagset_witness :
    (1 : Int) ≤ c9wMapper.chunkSize ∧
    RawMapper.nextChunk 20 c9wMapper =
      (some ⟨"m", [], [(1, .single 7), (2, .single 8)]⟩, (RawMapper.nextChunk 20 c9wMapper).2) ∧
    (((2 : Nat) : Int)) ≤ c9wMapper.chunkSize :=
  ⟨by decide, by rfl,
   by
     have hb := (C9_chunk_bound_single_tagset 20 c9wMapper
       ⟨"m", [], [(1, .single 7), (2, .single 8)]⟩ (RawMapper.nextChunk 20 c9wMapper).2
       (by decide) (by rfl)).1
     simpa using hb⟩

/-- The cursor states reachable from construction over a fixed merged
store, via Peek, Next and SeekTo. -/
inductive SeriesCursor.Reachable (data : List (Int × Bytes)) (filter : Option Filter) :
    SeriesCursor → Prop
  | base : SeriesCursor.Reachable data filter (newSeriesCursor ⟨data, 0⟩ filter)
  | peek {c : SeriesCursor} : SeriesCursor.Reachable data filter c →
      SeriesCursor.Reachable data filter c.peek.2
  | next {c : SeriesCursor} : SeriesCursor.Reachable data filter c →
      SeriesCursor.Reachable data filter c.next.2
  | seekTo {c : SeriesCursor} (k : Int) : SeriesCursor.Reachable data filter c →
      SeriesCursor.Reachable data filter (c.seekTo k)

/-- Invariant of reachable cursor states over a store with no timestamp-0
entry: the underlying data never changes, and a buffered sentinel timestamp
0 means the underlying cursor is past the end of the store. -/
theorem reachable_inv (data : List (Int × Bytes)) (filter : Option Filter)
    (hdata : ∀ e ∈ data, e.1 ≠ 0) :
    ∀ c, SeriesCursor.Reachable data filter c →
      c.cursor.data = data ∧ (c.keyBuffer = 0 → data.length ≤ c.cursor.pos) := by
  intro c hc
  induction hc with
  | base => exact ⟨rfl, fun h => by simp [newSeriesCursor] at h⟩
  | peek hc ih =>
    obtain ⟨hd, hk⟩ := ih
    rename_i c'
    unfold SeriesCursor.peek
    by_cases hb : c'.keyBuffer = -1
    · rw [if_pos hb]
      rcases hn : c'.cursor.next with ⟨o, cur⟩
      have hnd := ShardCursor.next_data c'.cursor
      rw [hn] at hnd
      simp only at hnd
      cases o with
      | none =>
        simp only
        unfold ShardCursor.next at hn
        rcases hg : c'.cursor.data.get? c'.cursor.pos with _ | e
        · rw [hg] at hn
          simp only [Prod.mk.injEq] at hn
          obtain ⟨_, rfl⟩ := hn
          refine ⟨hd, fun _ => ?_⟩
          rw [← hd]
          exact List.get?_eq_none.mp hg
        · rw [hg] at hn
          simp at hn
      | some e =>
        obtain ⟨k, v⟩ := e
        simp only
        refine ⟨hnd.trans hd, fun h0 => ?_⟩
        exfalso
        unfold ShardCursor.next at hn
        rcases hg : c'.cursor.data.get? c'.cursor.pos with _ | e'
        · rw [hg] at hn; simp at hn
        · rw [hg] at hn
          simp only [Prod.mk.injEq, Option.some_inj] at hn
          obtain ⟨he, _⟩ := hn
          have hmem : e' ∈ data := by rw [← hd]; exact List.get?_mem hg
          have h1 : e'.1 = 0 := by rw [he]; simpa using h0
          exact hdata e' hmem h1
    · rw [if_neg hb]
      exact ⟨hd, hk⟩
  | next hc ih =>
    obtain ⟨hd, hk⟩ := ih
    rename_i c'
    unfold SeriesCursor.next
    by_cases hb : c'.keyBuffer ≠ -1
    · rw [if_pos hb]
      exact ⟨hd, fun h => by simp at h⟩
    · rw [if_neg hb]
      rcases hn : c'.cursor.next with ⟨o, cur⟩
      have hnd := ShardCursor.next_data c'.cursor
      rw [hn] at hnd
      simp only at hnd
      push_neg at hb
      cases o with
      | none =>
        simp only
        refine ⟨hnd.trans hd, fun h0 => ?_⟩
        have h0' : c'.keyBuffer = 0 := h0
        rw [hb] at h0'
        exact absurd h0' (by decide)
      | some e =>
        obtain ⟨k, v⟩ := e
        simp only
        refine ⟨hnd.trans hd, fun h0 => ?_⟩
        have h0' : c'.keyBuffer = 0 := h0
        rw [hb] at h0'
        exact absurd h0' (by decide)
  | seekTo k hc ih =>
    obtain ⟨hd, hk⟩ := ih
    rename_i c'
    unfold SeriesCursor.seekTo
    rcases hn : c'.cursor.seek k with ⟨o, cur⟩
    have hnd := ShardCursor.seek_data c'.cursor k
    rw [hn] at hnd
    simp only at hnd
    cases o with
    | none =>
      simp only
      unfold ShardCursor.seek at hn
      dsimp only at hn
      rcases hg : c'.cursor.data.get?
          ((c'.cursor.data.findIdx? (fun e => k ≤ e.1)).getD c'.cursor.data.length) with _ | e
      · rw [hg] at hn
        simp only [Prod.mk.injEq] at hn
        obtain ⟨_, rfl⟩ := hn
        refine ⟨hd, fun _ => ?_⟩
        simp only
        rw [← hd]
        exact List.get?_eq_none.mp hg
      · rw [hg] at hn
        simp at hn
    | some e =>
      obtain ⟨kk, v⟩ := e
      simp only
      refine ⟨hnd.trans hd, fun h0 => ?_⟩
      exfalso
      unfold ShardCursor.seek at hn
      dsimp only at hn
      rcases hg : c'.cursor.data.get?
          ((c'.cursor.data.findIdx? (fun e => k ≤ e.1)).getD c'.cursor.data.length) with _ | e'
      · rw [hg] at hn; simp at hn
      · rw [hg] at hn
        simp only [Prod.mk.injEq, Option.some_inj] at hn
        obtain ⟨he, _⟩ := hn
        have hmem : e' ∈ data := by rw [← hd]; exact List.get?_mem hg
        have h1 : e'.1 = 0 := by rw [he]; simpa using h0
        exact hdata e' hmem h1

/-- C2 (amended): over a store containing no entry at timestamp 0, any
reachable series cursor state that yields timestamp 0 from Peek or Next is
exhausted: the underlying cursor is past the end of the store, so the
result genuinely denotes no data.  (A real timestamp-0 entry, by contrast,
is conflated with the sentinel — see the counterexample.) -/
theorem C2_sentinel_empty (data : List (Int × Bytes)) (filter : Option Filter)
    (c : SeriesCursor) (hdata : ∀ e ∈ data, e.1 ≠ 0)
    (hc : SeriesCursor.Reachable data filter c) :
    (c.peek.1.1 = 0 → data.length ≤ (c.peek.2).cursor.pos) ∧
    (c.next.1.1 = 0 → data.length ≤ (c.next.2).cursor.pos) := by
  have hp := reachable_inv data filter hdata c.peek.2 (.peek hc)
  have hn := reachable_inv data filter hdata c.next.2 (.next hc)
  have hpk := SeriesCursor.peek_keyBuffer c
  constructor
  · intro h0
    exact hp.2 (by rw [hpk, h0])
  · intro h0
    obtain ⟨hd, hk⟩ := reachable_inv data filter hdata c hc
    by_cases hb : c.keyBuffer ≠ -1
    · rw [SeriesCursor.next_of_buffered c hb] at h0 ⊢
      simp only at h0 ⊢
      exact hk h0
    · push_neg at hb
      unfold SeriesCursor.next at h0 ⊢
      rw [if_neg (by simp [hb])] at h0 ⊢
      rcases hcn : c.cursor.next with ⟨o, cur⟩
      have hnd := ShardCursor.next_data c.cursor
      rw [hcn] at hnd
      simp only at hnd
      cases o with
      | none =>
        simp only
        unfold ShardCursor.next at hcn
        rcases hg : c.cursor.data.get? c.cursor.pos with _ | e
        · rw [hg] at hcn
          simp only [Prod.mk.injEq] at hcn
          obtain ⟨_, rfl⟩ := hcn
          rw [← hd]
          exact List.get?_eq_none.mp hg
        · rw [hg] at hcn
          simp at hcn
      | some e =>
        obtain ⟨k, v⟩ := e
        exfalso
        have hk0 : k = 0 := by rw [hcn] at h0; simpa using h0
        unfold ShardCursor.next at hcn
        rcases hg : c.cursor.data.get? c.cursor.pos with _ | e'
        · rw [hg] at hcn; simp at hcn
        · rw [hg] at hcn
          simp only [Prod.mk.injEq, Option.some_inj] at hcn
          obtain ⟨he, _⟩ := hcn
          have hmem : e' ∈ data := by rw [← hd]; exact List.get?_mem hg
          have h1 : e'.1 = 0 := by rw [he]; exact hk0
          exact hdata e' hmem h1

/-- A reachable cursor past the end of the one-point store (5,42): seeking
to 10 leaves the sentinel buffered. -/
def c2wCursor : SeriesCursor := (newSeriesCursor ⟨[(5, 42)], 0⟩ none).seekTo 10

/-- Witness for the amended C2 statement: over the 0-free store [(5,42)],
the cursor sought to 10 satisfies the sentinel-means-exhausted property. -/
theorem C2_sentinel_empty_witness :
    (∀ e ∈ ([((5 : Int), (42 : Bytes))]), e.1 ≠ 0) ∧
    ((c2wCursor.peek.1.1 = 0 →
       ([((5 : Int), (42 : Bytes))]).length ≤ (c2wCursor.peek.2).cursor.pos) ∧
     (c2wCursor.next.1.1 = 0 →
       ([((5 : Int), (42 : Bytes))]).length ≤ (c2wCursor.next.2).cursor.pos)) :=
  ⟨by decide,
   C2_sentinel_empty [((5 : Int), (42 : Bytes))] none c2wCursor (by decide)
     (.seekTo 10 .base)⟩

/-! Observational equivalence of series cursors: states that differ only in
a stale value buffer hidden behind the 0 or -1 sentinel behave
identically. -/

/-- Two series cursor states are equivalent when underlying cursor, filter
and buffered timestamp agree, and the buffered value agrees whenever the
buffered timestamp is a real one (not the 0 or -1 sentinel). -/
def SCEquiv (c c' : SeriesCursor) : Prop :=
  c.cursor = c'.cursor ∧ c.filter = c'.filter ∧ c.keyBuffer = c'.keyBuffer ∧
  (c.keyBuffer ≠ 0 ∧ c.keyBuffer ≠ -1 → c.valueBuffer = c'.valueBuffer)

theorem SCEquiv.refl (c : SeriesCursor) : SCEquiv c c :=
  ⟨rfl, rfl, rfl, fun _ => rfl⟩

theorem SCEquiv.peek {c c' : SeriesCursor} (h : SCEquiv c c') :
    c.peek.1.1 = c'.peek.1.1 ∧ SCEquiv c.peek.2 c'.peek.2 ∧
    (c.peek.1.1 ≠ 0 ∧ c.peek.1.1 ≠ -1 → c.peek.1.2 = c'.peek.1.2) := by
  obtain ⟨hcur, hf, hkb, hvb⟩ := h
  unfold SeriesCursor.peek
  by_cases hb : c.keyBuffer = -1
  · rw [if_pos hb, if_pos (hkb ▸ hb), ← hcur]
    rcases hn : c.cursor.next with ⟨o, cur⟩
    cases o with
    | none =>
      refine ⟨rfl, ⟨rfl, hf, rfl, fun hg => absurd rfl hg.1⟩, fun hg => absurd rfl hg.1⟩
    | some e =>
      obtain ⟨k, v⟩ := e
      exact ⟨rfl, ⟨rfl, hf, rfl, fun _ => rfl⟩, fun _ => rfl⟩
  · rw [if_neg hb, if_neg (hkb ▸ hb)]
    refine ⟨hkb, ⟨hcur, hf, hkb, hvb⟩, fun hg => ?_⟩
    exact hvb ⟨hg.1, hg.2⟩

theorem SCEquiv.next {c c' : SeriesCursor} (h : SCEquiv c c') :
    c.next.1.1 = c'.next.1.1 ∧ SCEquiv c.next.2 c'.next.2 ∧
    (c.keyBuffer ≠ 0 ∧ c.keyBuffer ≠ -1 → c.next.1.2 = c'.next.1.2) := by
  obtain ⟨hcur, hf, hkb, hvb⟩ := h
  unfold SeriesCursor.next
  by_cases hb : c.keyBuffer ≠ -1
  · rw [if_pos hb, if_pos (hkb ▸ hb)]
    refine ⟨hkb, ⟨hcur, hf, rfl, fun hg => absurd rfl hg.2⟩, fun hg => hvb hg⟩
  · rw [if_neg hb, if_neg (hkb ▸ hb)]
    rw [← hcur]
    rcases hn : c.cursor.next with ⟨o, cur⟩
    cases o with
    | none =>
      exact ⟨rfl, ⟨rfl, hf, hkb, fun hg => hvb hg⟩, fun hg => rfl⟩
    | some e =>
      obtain ⟨k, v⟩ := e
      exact ⟨rfl, ⟨rfl, hf, hkb, fun hg => hvb hg⟩, fun hg => rfl⟩

theorem ShardCursor.seek_congr (c c' : ShardCursor) (k : Int) (hd : c.data = c'.data) :
    c.seek k = c'.seek k := by
  unfold ShardCursor.seek
  dsimp only
  rw [hd]

theorem SCEquiv.seekTo {c c' : SeriesCursor} (k : Int)
    (hd : c.cursor.data = c'.cursor.data) (hf : c.filter = c'.filter) :
    SCEquiv (c.seekTo k) (c'.seekTo k) := by
  have hs : c.cursor.seek k = c'.cursor.seek k := ShardCursor.seek_congr _ _ k hd
  unfold SeriesCursor.seekTo
  rw [hs, hf]
  rcases hg : c'.cursor.seek k with ⟨o, cur⟩
  cases o with
  | none => exact ⟨rfl, rfl, rfl, fun hg' => absurd rfl hg'.1⟩
  | some e =>
    obtain ⟨kk, v⟩ := e
    exact ⟨rfl, rfl, rfl, fun _ => rfl⟩

theorem forall₂_of_map_eq {α β : Type} (f : α → β) :
    ∀ (l l' : List α), l.map f = l'.map f →
      List.Forall₂ (fun x y => f x = f y) l l'
  | [], [], _ => List.Forall₂.nil
  | [], _ :: _, h => by simp at h
  | _ :: _, [], h => by simp at h
  | a :: l, b :: l', h => by
    simp only [List.map_cons, List.cons.injEq] at h
    exact List.Forall₂.cons h.1 (forall₂_of_map_eq f l l' h.2)

theorem forall₂_getD {α β : Type} {R : α → β → Prop} {l : List α} {l' : List β}
    (h : List.Forall₂ R l l') (d : α) (d' : β) (hd : R d d') (i : Nat) :
    R (l.getD i d) (l'.getD i d') := by
  induction h generalizing i with
  | nil => exact hd
  | cons hab hr ih =>
    cases i with
    | zero => exact hab
    | succ i => exact ih i

theorem forall₂_set {α β : Type} {R : α → β → Prop} {l : List α} {l' : List β}
    (h : List.Forall₂ R l l') (i : Nat) (a : α) (b : β) (hab : R a b) :
    List.Forall₂ R (l.set i a) (l'.set i b) := by
  induction h generalizing i with
  | nil => exact List.Forall₂.nil
  | cons hxy hr ih =>
    cases i with
    | zero => exact List.Forall₂.cons hab hr
    | succ i => exact List.Forall₂.cons hxy (ih i)

theorem forall₂_append_single {α β : Type} {R : α → β → Prop} {l : List α} {l' : List β}
    (h : List.Forall₂ R l l') {a : α} {b : β} (hab : R a b) :
    List.Forall₂ R (l ++ [a]) (l' ++ [b]) := by
  induction h with
  | nil => exact List.Forall₂.cons hab List.Forall₂.nil
  | cons hxy hr ih => exact List.Forall₂.cons hxy ih

theorem map_eq_of_getD {α β : Type} (f : α → β) :
    ∀ (l l' : List α) (d : α), l.length = l'.length →
      (∀ i, i < l.length → f (l.getD i d) = f (l'.getD i d)) →
      l.map f = l'.map f
  | [], [], _, _, _ => rfl
  | [], _ :: _, _, hlen, _ => by simp at hlen
  | _ :: _, [], _, hlen, _ => by simp at hlen
  | a :: l, b :: l', d, hlen, h => by
    simp only [List.map_cons]
    have h0 : f a = f b := h 0 (by simp)
    rw [h0, map_eq_of_getD f l l' d (by simpa using hlen)
      (fun i hi => h (i + 1) (by simpa using Nat.succ_lt_succ hi))]

/-- The series-level view of a member cursor: its underlying store and its
filter, the only components of the cursor that are not transient lookahead
state. -/
def scView (c : SeriesCursor) : List (Int × Bytes) × Option Filter :=
  (c.cursor.data, c.filter)

theorem scView_peek (c : SeriesCursor) : scView c.peek.2 = scView c := by
  unfold scView
  rw [SeriesCursor.peek_data, SeriesCursor.peek_filter]

theorem scView_next (c : SeriesCursor) : scView c.next.2 = scView c := by
  unfold scView
  rw [SeriesCursor.next_store, SeriesCursor.next_filter]

theorem scView_seekTo (c : SeriesCursor) (k : Int) : scView (c.seekTo k) = scView c := by
  unfold scView
  rw [SeriesCursor.seekTo_data, SeriesCursor.seekTo_filter]

/-- The series-level view of a tag-set cursor: each member's store and
filter. -/
def seriesView (tsc : TagSetCursor) : List (List (Int × Bytes) × Option Filter) :=
  tsc.cursors.map scView

/-- Observational equivalence of tag-set cursor states: equal metadata and
memberwise equivalent series cursors. -/
def TSEquiv (a b : TagSetCursor) : Prop :=
  a.measurement = b.measurement ∧ a.tags = b.tags ∧ a.decoder = b.decoder ∧
  List.Forall₂ SCEquiv a.cursors b.cursors

theorem forall₂_seekTo (k : Int) :
    ∀ (l l' : List SeriesCursor),
      List.Forall₂ (fun x y => scView x = scView y) l l' →
      List.Forall₂ SCEquiv (l.map (fun c => c.seekTo k)) (l'.map (fun c => c.seekTo k)) := by
  intro l l' h
  induction h with
  | nil => exact List.Forall₂.nil
  | cons hxy hr ih =>
    exact List.Forall₂.cons
      (SCEquiv.seekTo k (congrArg Prod.fst hxy) (congrArg Prod.snd hxy)) ih

/-- Two tag-set cursors over the same stores, filters and metadata become
equivalent after SeekTo, whatever their transient lookahead states were. -/
theorem seekTo_equiv_of_view {a b : TagSetCursor} (k : Int)
    (hm : a.measurement = b.measurement) (ht : a.tags = b.tags)
    (hd : a.decoder = b.decoder) (hv : seriesView a = seriesView b) :
    TSEquiv (a.seekTo k) (b.seekTo k) :=
  ⟨hm, ht, hd, forall₂_seekTo k a.cursors b.cursors (forall₂_of_map_eq scView _ _ hv)⟩

/-- Equivalent member lists drive the nextCursor selection loop to the same
choice, with memberwise equivalent updated states. -/
theorem nextCursorGo_equiv (tmin tmax : Int) :
    ∀ (cs cs' : List SeriesCursor), List.Forall₂ SCEquiv cs cs' →
    ∀ (acc acc' : List SeriesCursor) (best : Option Nat), List.Forall₂ SCEquiv acc acc' →
      (nextCursorGo tmin tmax acc cs best).1 = (nextCursorGo tmin tmax acc' cs' best).1 ∧
      List.Forall₂ SCEquiv (nextCursorGo tmin tmax acc cs best).2
        (nextCursorGo tmin tmax acc' cs' best).2 := by
  intro cs cs' hcs
  induction hcs with
  | nil => intro acc acc' best hacc; exact ⟨rfl, hacc⟩
  | cons hc hrest ih =>
    rename_i c c₂ rest rest₂
    intro acc acc' best hacc
    obtain ⟨hts, hst, _⟩ := SCEquiv.peek hc
    have hlen : acc.length = acc'.length := hacc.length_eq
    have hacc' : List.Forall₂ SCEquiv (acc ++ [c.peek.2]) (acc' ++ [c₂.peek.2]) :=
      forall₂_append_single hacc hst
    cases best with
    | none =>
      simp only [nextCursorGo]
      rw [← hts, ← hlen]
      by_cases hr : inRange c.peek.1.1 tmin tmax
      · rw [if_pos hr, if_pos hr]; exact ih _ _ _ hacc'
      · rw [if_neg hr, if_neg hr]; exact ih _ _ _ hacc'
    | some j =>
      simp only [nextCursorGo]
      rw [← hts]
      by_cases hr : inRange c.peek.1.1 tmin tmax
      · rw [if_pos hr, if_pos hr, ← hlen]
        have hcj : SCEquiv ((acc ++ [c.peek.2]).getD j default)
            ((acc' ++ [c₂.peek.2]).getD j default) :=
          forall₂_getD hacc' default default (SCEquiv.refl default) j
        obtain ⟨htj, hstj, _⟩ := SCEquiv.peek hcj
        have hset := forall₂_set hacc' j _ _ hstj
        rw [← htj]
        by_cases hlt : c.peek.1.1 < ((acc ++ [c.peek.2]).getD j default).peek.1.1
        · rw [if_pos hlt, if_pos hlt]; exact ih _ _ _ hset
        · rw [if_neg hlt, if_neg hlt]; exact ih _ _ _ hset
      · rw [if_neg hr, if_neg hr]; exact ih _ _ _ hacc'

theorem nextCursor_equiv {a b : TagSetCursor} (h : TSEquiv a b) (tmin tmax : Int) :
    (a.nextCursor tmin tmax).1 = (b.nextCursor tmin tmax).1 ∧
    TSEquiv (a.nextCursor tmin tmax).2 (b.nextCursor tmin tmax).2 := by
  obtain ⟨hm, ht, hd, hc⟩ := h
  obtain ⟨h1, h2⟩ := nextCursorGo_equiv tmin tmax _ _ hc [] [] none List.Forall₂.nil
  exact ⟨h1, hm, ht, hd, h2⟩

/-- Equivalent tag-set cursor states return the same (timestamp, value)
from Next and stay equivalent, for nonnegative tmin. -/
theorem nextAux_equiv (tmin tmax : Int) (htmin : 0 ≤ tmin) (sf wf : List String) :
    ∀ (fuel : Nat) (a b : TagSetCursor), TSEquiv a b →
      (TagSetCursor.nextAux fuel a tmin tmax sf wf).1 =
        (TagSetCursor.nextAux fuel b tmin tmax sf wf).1 ∧
      TSEquiv (TagSetCursor.nextAux fuel a tmin tmax sf wf).2
        (TagSetCursor.nextAux fuel b tmin tmax sf wf).2 := by
  intro fuel
  induction fuel with
  | zero => intro a b h; exact ⟨rfl, h⟩
  | succ fuel ih =>
    intro a b h
    obtain ⟨h1, h2⟩ := nextCursor_equiv h tmin tmax
    rcases hna : a.nextCursor tmin tmax with ⟨o, a'⟩
    rcases hnb : b.nextCursor tmin tmax with ⟨o₂, b'⟩
    rw [hna, hnb] at h1 h2
    simp only at h1
    subst h1
    cases o with
    | none =>
      simp only [TagSetCursor.nextAux, hna, hnb]
      exact ⟨trivial, h2⟩
    | some i =>
      obtain ⟨hm2, ht2, hd2, hc2⟩ := h2
      have hcc : SCEquiv (a'.cursors.getD i default) (b'.cursors.getD i default) :=
        forall₂_getD hc2 default default (SCEquiv.refl default) i
      obtain ⟨m, hget, hin, _, hkb⟩ := nextCursor_some_spec a tmin tmax htmin i (by rw [hna])
      rw [hna] at hkb
      simp only at hkb
      have hm1 : (1 : Int) ≤ m := inRange_one_le htmin hin
      have hkb' : (a'.cursors.getD i default).keyBuffer ≠ 0 ∧
          (a'.cursors.getD i default).keyBuffer ≠ -1 := by
        rw [hkb]; exact ⟨by omega, by omega⟩
      obtain ⟨hpt, hpst, hpv⟩ := SCEquiv.next hcc
      have hval : (a'.cursors.getD i default).next.1.2 =
          (b'.cursors.getD i default).next.1.2 := hpv hkb'
      simp only [TagSetCursor.nextAux, hna, hnb]
      rw [← hval, ← hpt, ← hd2, ← hcc.2.1]
      cases hb : (a'.cursors.getD i default).next.1.2 with
      | none =>
        simp only [hb]
        exact ih _ _ ⟨hm2, ht2, rfl, forall₂_set hc2 i _ _ hpst⟩
      | some bb =>
        simp only [hb]
        cases hd1 : decodeValue a'.decoder (a'.cursors.getD i default).filter sf wf bb with
        | none =>
          simp only [hd1]
          exact ih _ _ ⟨hm2, ht2, rfl, forall₂_set hc2 i _ _ hpst⟩
        | some v =>
          simp only [hd1]
          exact ⟨trivial, hm2, ht2, rfl, forall₂_set hc2 i _ _ hpst⟩

/-- Equivalent tag-set cursor states feed a map function the same value
sequence, for nonnegative qmin. -/
theorem drainAll_equiv (qmin tmax : Int) (hq : 0 ≤ qmin) (sf wf : List String) :
    ∀ (fuel : Nat) (a b : TagSetCursor), TSEquiv a b →
      (drainAll qmin tmax sf wf fuel a).1 = (drainAll qmin tmax sf wf fuel b).1 ∧
      TSEquiv (drainAll qmin tmax sf wf fuel a).2 (drainAll qmin tmax sf wf fuel b).2 := by
  intro fuel
  induction fuel with
  | zero => intro a b h; exact ⟨rfl, h⟩
  | succ fuel ih =>
    intro a b h
    obtain ⟨h1, h2⟩ := nextAux_equiv qmin tmax hq sf wf (fuel + 1) a b h
    simp only [drainAll]
    rw [← h1]
    cases hv : (TagSetCursor.nextAux (fuel + 1) a qmin tmax sf wf).1.2 with
    | none =>
      simp only [hv]
      exact ⟨trivial, h2⟩
    | some v =>
      simp only [hv]
      obtain ⟨hr1, hr2⟩ := ih _ _ h2
      rw [hr1]
      exact ⟨rfl, hr2⟩

/-- The Next loop never changes any member's store or filter. -/
theorem seriesView_nextAux (fuel : Nat) (tsc : TagSetCursor) (tmin tmax : Int)
    (sf wf : List String) :
    seriesView (TagSetCursor.nextAux fuel tsc tmin tmax sf wf).2 = seriesView tsc :=
  map_eq_of_getD scView _ _ default
    (nextAux_meta fuel tsc tmin tmax sf wf).2.2.2
    (fun i _ => nextAux_pointwise scView scView_peek scView_next fuel tsc tmin tmax sf wf i)

/-- SeekTo never changes any member's store or filter. -/
theorem seriesView_seekTo (tsc : TagSetCursor) (k : Int) :
    seriesView (tsc.seekTo k) = seriesView tsc := by
  unfold seriesView TagSetCursor.seekTo
  dsimp only
  rw [List.map_map]
  apply List.map_congr_left
  intro c _
  exact scView_seekTo c k

/-- Draining never changes any member's store or filter. -/
theorem seriesView_drainAll (qmin tmax : Int) (sf wf : List String) :
    ∀ (fuel : Nat) (tsc : TagSetCursor),
      seriesView (drainAll qmin tmax sf wf fuel tsc).2 = seriesView tsc := by
  intro fuel
  induction fuel with
  | zero => intro tsc; rfl
  | succ fuel ih =>
    intro tsc
    simp only [drainAll]
    cases hv : (TagSetCursor.nextAux (fuel + 1) tsc qmin tmax sf wf).1.2 with
    | none =>
      simp only [hv]
      exact seriesView_nextAux (fuel + 1) tsc qmin tmax sf wf
    | some v =>
      simp only [hv]
      exact (ih _).trans (seriesView_nextAux (fuel + 1) tsc qmin tmax sf wf)

/-- Draining preserves the tag-set metadata. -/
theorem drainAll_meta (qmin tmax : Int) (sf wf : List String) :
    ∀ (fuel : Nat) (tsc : TagSetCursor),
      (drainAll qmin tmax sf wf fuel tsc).2.measurement = tsc.measurement ∧
      (drainAll qmin tmax sf wf fuel tsc).2.tags = tsc.tags ∧
      (drainAll qmin tmax sf wf fuel tsc).2.decoder = tsc.decoder := by
  intro fuel
  induction fuel with
  | zero => intro tsc; exact ⟨rfl, rfl, rfl⟩
  | succ fuel ih =>
    intro tsc
    have hmeta := nextAux_meta (fuel + 1) tsc qmin tmax sf wf
    simp only [drainAll]
    cases hv : (TagSetCursor.nextAux (fuel + 1) tsc qmin tmax sf wf).1.2 with
    | none =>
      simp only [hv]
      exact ⟨hmeta.1, hmeta.2.1, hmeta.2.2.1⟩
    | some v =>
      simp only [hv]
      obtain ⟨a, b, c⟩ := ih (TagSetCursor.nextAux (fuel + 1) tsc qmin tmax sf wf).2
      exact ⟨a.trans hmeta.1, b.trans hmeta.2.1, c.trans hmeta.2.2.1⟩

/-- Every timestamp a map function is fed lies at qmin or inside the
half-open window, for nonnegative qmin. -/
theorem drainAll_bounds (qmin tmax : Int) (hq : 0 ≤ qmin) (sf wf : List String) :
    ∀ (fuel : Nat) (tsc : TagSetCursor) (tv : Int × MapperValue),
      tv ∈ (drainAll qmin tmax sf wf fuel tsc).1 →
      tv.1 = qmin ∨ (qmin ≤ tv.1 ∧ tv.1 < tmax) := by
  intro fuel
  induction fuel with
  | zero =>
    intro tsc tv h
    simp only [drainAll, List.not_mem_nil] at h
  | succ fuel ih =>
    intro tsc tv h
    simp only [drainAll] at h
    rcases hna : TagSetCursor.nextAux (fuel + 1) tsc qmin tmax sf wf with ⟨⟨t, o⟩, tsc'⟩
    rw [hna] at h
    cases o with
    | none => simp at h
    | some v =>
      simp only at h
      rcases List.mem_cons.mp h with h1 | h2
      · rw [h1]
        exact nextAux_bounds qmin tmax hq (fuel + 1) tsc sf wf t v tsc' hna
      · exact ih tsc' tv h2

/-- The per-function loop evaluates each map function independently: its
feed equals the drain of the ORIGINAL tag-set cursor (any cursor with the
same stores, filters and metadata) re-sought to the interval start, not of
whatever state the previous function left behind.  Requires nonnegative
qmin. -/
theorem aggFuncsFold_canonical (fuel : Nat) (tmin qmin tmax : Int) (hq : 0 ≤ qmin)
    (wf : List String) :
    ∀ (fns : List (MapFunc × String)) (c c₀ : TagSetCursor),
      c.measurement = c₀.measurement → c.tags = c₀.tags → c.decoder = c₀.decoder →
      seriesView c = seriesView c₀ →
      (aggFuncsFold fuel tmin qmin tmax wf fns c).1 =
        fns.map (fun p => p.1 ((drainAll qmin tmax [p.2] wf fuel (c₀.seekTo tmin)).1)) := by
  intro fns
  induction fns with
  | nil => intro c c₀ _ _ _ _; rfl
  | cons p rest ih =>
    obtain ⟨f, name⟩ := p
    intro c c₀ hm ht hd hv
    simp only [aggFuncsFold, List.map_cons]
    have hseek : TSEquiv (c.seekTo tmin) (c₀.seekTo tmin) :=
      seekTo_equiv_of_view tmin hm ht hd hv
    obtain ⟨hfeed, _⟩ := drainAll_equiv qmin tmax hq [name] wf fuel _ _ hseek
    have hmeta := drainAll_meta qmin tmax [name] wf fuel (c.seekTo tmin)
    have hview := seriesView_drainAll qmin tmax [name] wf fuel (c.seekTo tmin)
    have hv2 : seriesView (drainAll qmin tmax [name] wf fuel (c.seekTo tmin)).2 =
        seriesView c₀ := hview.trans ((seriesView_seekTo c tmin).trans hv)
    have htail := ih (drainAll qmin tmax [name] wf fuel (c.seekTo tmin)).2 c₀
      (hmeta.1.trans hm) (hmeta.2.1.trans ht) (hmeta.2.2.trans hd) hv2
    rw [hfeed, htail]

/-- The value feed an aggregate function receives for one interval: the
tag-set cursor sought to the interval start tmin, drained for the single
field between the clamped lower bound qmin and the interval end. -/
def aggFeed (fuel : Nat) (tmin qmin tmax : Int) (wf : List String)
    (c : TagSetCursor) (name : String) : List (Int × MapperValue) :=
  (drainAll qmin tmax [name] wf fuel (c.seekTo tmin)).1

theorem clamp_eq_max (t q : Int) : (if t < q then q else t) = max t q := by
  by_cases hc : t < q
  · rw [if_pos hc, max_eq_right (le_of_lt hc)]
  · rw [if_neg hc, max_eq_left (le_of_not_lt hc)]

/-- C8: whenever the aggregate mapper emits a chunk (for a well-formed
interval counter), the chunk belongs to one tag-set cursor at or after the
current one, its time is a floor-aligned interval start within the query
window; every map function's result is computed over a feed obtained by
re-seeking the SAME original tag-set cursor to the interval start (so the
functions are evaluated independently, not in one shared pass) with the
effective lower bound clamped to max of the interval start and the query's
true minimum time; and no value with a timestamp before the query minimum
time is ever fed to any aggregate function. -/
theorem C8_agg_reseek_and_clamp :
    ∀ (fuel : Nat) (am : AggMapper) (o : AggMapperOutput) (am' : AggMapper),
      0 ≤ am.currInterval →
      AggMapper.nextChunkAux fuel am = (some o, am') →
      ∃ (j : Nat) (n : Int) (fuel' : Nat),
        am.currCursorIndex ≤ j ∧ 0 ≤ n ∧
        o.time = am.queryTMinWindow + (n + am.stmtOffset) * am.intervalSize ∧
        0 ≤ o.time ∧ o.time ≤ am.queryTMax ∧
        o.name = (am.cursors.getD j default).measurement ∧
        o.tags = (am.cursors.getD j default).tags ∧
        o.values = (am.mapFuncs.zip am.fieldNames).map (fun p =>
          p.1 (aggFeed fuel' o.time (max o.time am.queryTMin) (o.time + am.intervalSize)
            am.whereFields (am.cursors.getD j default) p.2)) ∧
        (∀ p ∈ am.mapFuncs.zip am.fieldNames,
          ∀ tv ∈ aggFeed fuel' o.time (max o.time am.queryTMin) (o.time + am.intervalSize)
            am.whereFields (am.cursors.getD j default) p.2,
          am.queryTMin ≤ tv.1) := by
  intro fuel
  induction fuel with
  | zero =>
    intro am o am' _ h
    simp only [AggMapper.nextChunkAux, Prod.mk.injEq] at h
    exact absurd h.1 (by simp)
  | succ fuel ih =>
    intro am o am' hci h
    simp only [AggMapper.nextChunkAux] at h
    by_cases hidx : am.currCursorIndex = am.cursors.length
    · rw [if_pos hidx] at h
      simp at h
    · rw [if_neg hidx] at h
      simp only [AggMapper.nextInterval] at h
      by_cases hgd : (decide (am.queryTMinWindow +
          (am.currInterval + am.stmtOffset) * am.intervalSize > am.queryTMax) ||
          decide (am.currInterval + 1 > am.numIntervals)) = true
      · rw [if_pos hgd] at h
        dsimp only at h
        rw [if_pos (show (-1 : Int) < 0 by norm_num)] at h
        obtain ⟨j, n, fuel', h1, h2, h3, h4, h5, h6, h7, h8, h9⟩ :=
          ih _ o am' (le_refl 0) h
        exact ⟨j, n, fuel', Nat.le_of_succ_le h1, h2, h3, h4, h5, h6, h7, h8, h9⟩
      · rw [if_neg hgd] at h
        dsimp only at h
        by_cases htneg : am.queryTMinWindow +
            (am.currInterval + am.stmtOffset) * am.intervalSize < 0
        · rw [if_pos htneg] at h
          obtain ⟨j, n, fuel', h1, h2, h3, h4, h5, h6, h7, h8, h9⟩ :=
            ih _ o am' (le_refl 0) h
          exact ⟨j, n, fuel', Nat.le_of_succ_le h1, h2, h3, h4, h5, h6, h7, h8, h9⟩
        · rw [if_neg htneg] at h
          simp only [Bool.or_eq_true, decide_eq_true_eq, not_or] at hgd
          simp only [Prod.mk.injEq, Option.some.injEq] at h
          obtain ⟨ho, _⟩ := h
          subst ho
          dsimp only
          rw [clamp_eq_max]
          have hq : (0 : Int) ≤ max (am.queryTMinWindow +
              (am.currInterval + am.stmtOffset) * am.intervalSize) am.queryTMin :=
            le_trans (by omega) (le_max_left _ _)
          refine ⟨am.currCursorIndex, am.currInterval, fuel + 1, le_refl _, hci,
            rfl, by omega, by omega, rfl, rfl, ?_, ?_⟩
          · exact aggFuncsFold_canonical (fuel + 1) _ _ _ hq am.whereFields
              (am.mapFuncs.zip am.fieldNames) _ _ rfl rfl rfl rfl
          · intro p hp tv htv
            have hb := drainAll_bounds _ _ hq [p.2] am.whereFields (fuel + 1) _ tv htv
            have hle : am.queryTMin ≤ max (am.queryTMinWindow +
                (am.currInterval + am.stmtOffset) * am.intervalSize) am.queryTMin :=
              le_max_right _ _
            rcases hb with hb | hb
            · rw [hb]; exact hle
            · exact le_trans hle hb.1

/-- A series with points at timestamps 6 and 7 (bytes 6 and 7). -/
def c8Series : SeriesCursor := newSeriesCursor ⟨[(6, 6), (7, 7)], 0⟩ none

/-- The tag set of the C8 witness. -/
def c8TagSet : TagSetCursor := newTagSetCursor "cpu" [("host", "a")] [c8Series] scodec

/-- An aggregate mapper over one tag set: query minimum 5, maximum 9,
GROUP BY interval 10 floor-aligned to window start 0 (so the single
interval starts before the query minimum and clamping matters), one count
function over field value. -/
def c8am : AggMapper :=
  ⟨5, 0, 9, 10, [cntFunc], ["value"], [], 1, 0, 0, [c8TagSet], 0⟩

/-- The chunk the C8 witness mapper emits: interval start 0, count 2. -/
def c8out : AggMapperOutput := ⟨"cpu", [("host", "a")], 0, [2]⟩

/-- C8 witness: the hypotheses hold at the concrete mapper and the emitted
chunk satisfies the re-seek and clamp characterisation. -/
theorem C8_agg_reseek_and_clamp_witness :
    ((0 : Int) ≤ c8am.currInterval ∧
      AggMapper.nextChunkAux 3 c8am = (some c8out, (AggMapper.nextChunkAux 3 c8am).2)) ∧
    (∃ (j : Nat) (n : Int) (fuel' : Nat),
      c8am.currCursorIndex ≤ j ∧ 0 ≤ n ∧
      c8out.time = c8am.queryTMinWindow + (n + c8am.stmtOffset) * c8am.intervalSize ∧
      0 ≤ c8out.time ∧ c8out.time ≤ c8am.queryTMax ∧
      c8out.name = (c8am.cursors.getD j default).measurement ∧
      c8out.tags = (c8am.cursors.getD j default).tags ∧
      c8out.values = (c8am.mapFuncs.zip c8am.fieldNames).map (fun p =>
        p.1 (aggFeed fuel' c8out.time (max c8out.time c8am.queryTMin)
          (c8out.time + c8am.intervalSize) c8am.whereFields
          (c8am.cursors.getD j default) p.2)) ∧
      (∀ p ∈ c8am.mapFuncs.zip c8am.fieldNames,
        ∀ tv ∈ aggFeed fuel' c8out.time (max c8out.time c8am.queryTMin)
          (c8out.time + c8am.intervalSize) c8am.whereFields
          (c8am.cursors.getD j default) p.2,
        c8am.queryTMin ≤ tv.1)) :=
  ⟨⟨by decide, by rfl⟩,
    C8_agg_reseek_and_clamp 3 c8am c8out ((AggMapper.nextChunkAux 3 c8am).2)
      (by decide) (by rfl)⟩

end Tsdb
